import Mathlib

/-!
Verification of the dark-mode PDF content-stream transformation engine
(`backend/pdf_processor_pikepdf.py`).

The Python code computes with IEEE floats; here every numeric value is an
exact rational.  To keep all definitions kernel-computable we use `Q`,
unreduced integer fractions with a positive denominator, together with an
interpretation `Q.toRat` into `ℚ` used to state and prove the algebraic
properties.
-/

namespace PdfDark

/-- Exact rational numbers as unreduced fractions with positive denominator.
All arithmetic performed by the Python engine on floats is modelled exactly
on this type. -/
structure Q where
  n : Int
  d : Int
  dpos : 0 < d

/-- Interpretation of `Q` into the rational numbers. -/
def Q.toRat (a : Q) : ℚ := (a.n : ℚ) / (a.d : ℚ)

/-- Embed an integer. -/
def qOf (n : Int) : Q := ⟨n, 1, Int.one_pos⟩

def Q.add (a b : Q) : Q := ⟨a.n * b.d + b.n * a.d, a.d * b.d, mul_pos a.dpos b.dpos⟩

def Q.sub (a b : Q) : Q := ⟨a.n * b.d - b.n * a.d, a.d * b.d, mul_pos a.dpos b.dpos⟩

def Q.mul (a b : Q) : Q := ⟨a.n * b.n, a.d * b.d, mul_pos a.dpos b.dpos⟩

def Q.neg (a : Q) : Q := ⟨-a.n, a.d, a.dpos⟩

/-- Division.  Division by zero yields zero (that path is never taken by the
engine: every division in the source is guarded). -/
def Q.div (a b : Q) : Q :=
  if h : 0 < b.n then ⟨a.n * b.d, a.d * b.n, mul_pos a.dpos h⟩
  else if h2 : b.n < 0 then ⟨-(a.n * b.d), a.d * (-b.n), mul_pos a.dpos (by omega)⟩
  else qOf 0

/-- Strict comparison, as on Python floats. -/
def Q.lt (a b : Q) : Prop := a.n * b.d < b.n * a.d

/-- Non-strict comparison. -/
def Q.le (a b : Q) : Prop := a.n * b.d ≤ b.n * a.d

/-- Numeric equality test (Python `==` on floats). -/
def Q.qeq (a b : Q) : Prop := a.n * b.d = b.n * a.d

instance (a b : Q) : Decidable (a.lt b) := Int.decLt _ _
instance (a b : Q) : Decidable (a.le b) := Int.decLe _ _
instance (a b : Q) : Decidable (a.qeq b) := Int.decEq _ _

/-- Python `max(a, b)`: returns the first argument on ties. -/
def Q.max2 (a b : Q) : Q := if a.lt b then b else a

/-- Python `min(a, b)`: returns the first argument on ties. -/
def Q.min2 (a b : Q) : Q := if b.lt a then b else a

/-- Python `abs`. -/
def Q.qabs (a : Q) : Q := if a.lt (qOf 0) then a.neg else a

/-- Floor of `a` as an integer (used for Python's float `%`). -/
def Q.floor (a : Q) : Int := a.n.fdiv a.d

/-- Python's float modulo `x % m` for positive `m`:
`x - m * ⌊x / m⌋`. -/
def Q.qmod (x m : Q) : Q := x.sub (m.mul (qOf ((x.div m).floor)))

theorem Q.dne (a : Q) : ((a.d : ℚ)) ≠ 0 := by
  exact_mod_cast (ne_of_gt a.dpos)

theorem qOf_toRat (n : Int) : (qOf n).toRat = (n : ℚ) := by
  unfold qOf Q.toRat
  simp

/-- A literal fraction `n / d` (`qd n d` plays the role of the float literal
`n/d` of the source). -/
def qd (n d : Int) : Q := (qOf n).div (qOf d)

theorem Q.add_toRat (a b : Q) : (a.add b).toRat = a.toRat + b.toRat := by
  unfold Q.add Q.toRat
  have ha := a.dne
  have hb := b.dne
  field_simp
  try push_cast
  try ring

theorem Q.sub_toRat (a b : Q) : (a.sub b).toRat = a.toRat - b.toRat := by
  unfold Q.sub Q.toRat
  have ha := a.dne
  have hb := b.dne
  field_simp
  try push_cast
  try ring

theorem Q.mul_toRat (a b : Q) : (a.mul b).toRat = a.toRat * b.toRat := by
  unfold Q.mul Q.toRat
  have ha := a.dne
  have hb := b.dne
  field_simp
  try push_cast
  try ring

theorem Q.neg_toRat (a : Q) : (a.neg).toRat = -a.toRat := by
  unfold Q.neg Q.toRat
  have ha := a.dne
  field_simp

theorem Q.div_toRat (a b : Q) : (a.div b).toRat = a.toRat / b.toRat := by
  unfold Q.div Q.toRat
  have ha := a.dne
  have hb := b.dne
  by_cases h : 0 < b.n
  · rw [dif_pos h]
    have hn : ((b.n : ℚ)) ≠ 0 := by exact_mod_cast (ne_of_gt h)
    field_simp
    try push_cast
    try ring
  · rw [dif_neg h]
    by_cases h2 : b.n < 0
    · rw [dif_pos h2]
      have hn : ((b.n : ℚ)) ≠ 0 := by exact_mod_cast (ne_of_lt h2)
      field_simp
      try push_cast
      try ring
    · rw [dif_neg h2]
      have hz : b.n = 0 := by omega
      simp [qOf, hz]

theorem qd_toRat (n d : Int) : (qd n d).toRat = (n : ℚ) / (d : ℚ) := by
  unfold qd
  rw [Q.div_toRat, qOf_toRat, qOf_toRat]

theorem Q.lt_iff (a b : Q) : a.lt b ↔ a.toRat < b.toRat := by
  unfold Q.lt Q.toRat
  rw [div_lt_div_iff (by exact_mod_cast a.dpos) (by exact_mod_cast b.dpos)]
  constructor
  · intro h
    exact_mod_cast h
  · intro h
    exact_mod_cast h

theorem Q.le_iff (a b : Q) : a.le b ↔ a.toRat ≤ b.toRat := by
  unfold Q.le Q.toRat
  rw [div_le_div_iff (by exact_mod_cast a.dpos) (by exact_mod_cast b.dpos)]
  constructor
  · intro h
    exact_mod_cast h
  · intro h
    exact_mod_cast h

theorem Q.qeq_iff (a b : Q) : a.qeq b ↔ a.toRat = b.toRat := by
  unfold Q.qeq Q.toRat
  rw [div_eq_div_iff a.dne b.dne]
  constructor
  · intro h
    exact_mod_cast h
  · intro h
    exact_mod_cast h

theorem Q.max2_toRat (a b : Q) : (a.max2 b).toRat = max a.toRat b.toRat := by
  unfold Q.max2
  by_cases h : a.lt b
  · rw [if_pos h, max_eq_right (le_of_lt ((Q.lt_iff a b).mp h))]
  · rw [if_neg h, max_eq_left (le_of_not_lt (fun hc => h ((Q.lt_iff a b).mpr hc)))]

theorem Q.min2_toRat (a b : Q) : (a.min2 b).toRat = min a.toRat b.toRat := by
  unfold Q.min2
  by_cases h : b.lt a
  · rw [if_pos h, min_eq_right (le_of_lt ((Q.lt_iff b a).mp h))]
  · rw [if_neg h, min_eq_left (le_of_not_lt (fun hc => h ((Q.lt_iff b a).mpr hc)))]

theorem Q.qabs_toRat (a : Q) : (a.qabs).toRat = |a.toRat| := by
  unfold Q.qabs
  by_cases h : a.lt (qOf 0)
  · rw [if_pos h, Q.neg_toRat, abs_of_neg]
    have := (Q.lt_iff a (qOf 0)).mp h
    rwa [qOf_toRat] at this
  · rw [if_neg h, abs_of_nonneg]
    have := fun hc => h ((Q.lt_iff a (qOf 0)).mpr hc)
    have h2 := le_of_not_lt this
    rwa [qOf_toRat] at h2

theorem Q.floor_toRat (a : Q) : (a.floor : ℚ) = (⌊a.toRat⌋ : ℚ) := by
  unfold Q.floor Q.toRat
  congr 1
  symm
  rw [Int.floor_eq_iff]
  have hd : (0 : ℚ) < (a.d : ℚ) := by exact_mod_cast a.dpos
  have h1 : a.n = a.d * a.n.fdiv a.d + a.n.fmod a.d := (Int.fdiv_add_fmod a.n a.d).symm
  have h2 : 0 ≤ a.n.fmod a.d := Int.fmod_nonneg' a.n a.dpos
  have h3 : a.n.fmod a.d < a.d := Int.fmod_lt_of_pos a.n a.dpos
  have hc : a.n.fdiv a.d * a.d = a.d * a.n.fdiv a.d := mul_comm _ _
  have hc2 : (a.n.fdiv a.d + 1) * a.d = a.d * a.n.fdiv a.d + a.d := by ring
  constructor
  · rw [le_div_iff hd]
    have : (a.n.fdiv a.d) * a.d ≤ a.n := by omega
    exact_mod_cast this
  · rw [div_lt_iff hd]
    have : a.n < (a.n.fdiv a.d + 1) * a.d := by omega
    exact_mod_cast this

theorem Q.qmod_toRat (x m : Q) :
    (x.qmod m).toRat = x.toRat - m.toRat * (⌊x.toRat / m.toRat⌋ : ℚ) := by
  unfold Q.qmod
  rw [Q.sub_toRat, Q.mul_toRat, qOf_toRat, Q.floor_toRat, Q.div_toRat]

/-!
## Content-stream scanning

The Python engine runs six `re.sub` passes over the content stream, one per
colour-operator family.  Each pattern is a fixed sequence of numeric-operand
groups separated by `\s+`, a literal operator token, and (for four of the six
families) a trailing `\b`.  For such patterns the backtracking regex engine is
deterministic: every alternative sub-match of a numeric group or whitespace
run ends on a digit, a dot, or a whitespace character, which can never satisfy
the component that follows, so a match at a position exists iff the greedy
scan succeeds.  `matchAtS` below is that greedy scan; `subSegs` is `re.sub`'s
leftmost non-overlapping sweep.
-/

/-- Python regex `\d` on latin-1 text: the ASCII decimal digits. -/
def isDigitCh (c : Char) : Bool := c.isDigit

/-- Python regex `\s` on latin-1 text: ASCII whitespace, the file/group/record
/unit separators, NEL (U+0085) and NBSP (U+00A0). -/
def isSpaceCh (c : Char) : Bool :=
  c == ' ' || c == '\t' || c == '\n' || c == '\r' ||
  c.toNat == 11 || c.toNat == 12 ||
  (decide (28 ≤ c.toNat) && decide (c.toNat ≤ 31)) ||
  c.toNat == 133 || c.toNat == 160

/-- Python regex `\w` on latin-1 text: ASCII alphanumerics, underscore, and
the latin-1 letters and numeric signs counted alphanumeric by Python. -/
def isWordCh (c : Char) : Bool :=
  c.isAlphanum || c == '_' ||
  c.toNat == 170 || c.toNat == 178 || c.toNat == 179 || c.toNat == 181 ||
  c.toNat == 185 || c.toNat == 186 ||
  (decide (188 ≤ c.toNat) && decide (c.toNat ≤ 190)) ||
  (decide (192 ≤ c.toNat) && decide (c.toNat ≤ 214)) ||
  (decide (216 ≤ c.toNat) && decide (c.toNat ≤ 246)) ||
  (decide (248 ≤ c.toNat) && decide (c.toNat ≤ 255))

/-- Split off the maximal prefix of characters satisfying `p`. -/
def splitCh (p : Char → Bool) : List Char → List Char × List Char
  | [] => ([], [])
  | c :: cs =>
    if p c then
      let r := splitCh p cs
      (c :: r.1, r.2)
    else ([], c :: cs)

theorem splitCh_append (p : Char → Bool) (s : List Char) :
    (splitCh p s).1 ++ (splitCh p s).2 = s := by
  induction s with
  | nil => rfl
  | cons c cs ih =>
    by_cases h : p c
    · simp [splitCh, h, ih]
    · simp [splitCh, h]

/-- Greedy match of the operand pattern `\d*\.?\d+` (used by the `rg`/`RG`
passes) at the head of `s`: returns the consumed operand and the rest.  The
greedy engine consumes the maximal digit run, one dot if it is followed by at
least one digit, and the maximal digit run after that dot; if the dot has no
digits after it, only the leading digit run (which must then be nonempty)
is consumed. -/
def numSplitA (s : List Char) : Option (List Char × List Char) :=
  match (splitCh isDigitCh s).2 with
  | '.' :: r2 =>
    if ((splitCh isDigitCh r2).1).isEmpty then
      if ((splitCh isDigitCh s).1).isEmpty then none
      else some ((splitCh isDigitCh s).1, '.' :: r2)
    else
      some ((splitCh isDigitCh s).1 ++ '.' :: (splitCh isDigitCh r2).1,
        (splitCh isDigitCh r2).2)
  | _ =>
    if ((splitCh isDigitCh s).1).isEmpty then none
    else some ((splitCh isDigitCh s).1, (splitCh isDigitCh s).2)

/-- Greedy match of the operand pattern `\d+\.?\d*` (used by the `g`/`G`/`k`/
`K` passes) at the head of `s`: a nonempty digit run, then optionally a dot
together with the (possibly empty) digit run after it. -/
def numSplitB (s : List Char) : Option (List Char × List Char) :=
  if ((splitCh isDigitCh s).1).isEmpty then none
  else
    match (splitCh isDigitCh s).2 with
    | '.' :: r2 =>
      some ((splitCh isDigitCh s).1 ++ '.' :: (splitCh isDigitCh r2).1,
        (splitCh isDigitCh r2).2)
    | _ => some ((splitCh isDigitCh s).1, (splitCh isDigitCh s).2)

theorem numSplitA_append (s t r : List Char) (h : numSplitA s = some (t, r)) :
    t ++ r = s := by
  have hs := splitCh_append isDigitCh s
  unfold numSplitA at h
  split at h
  next r2 heq =>
    have hs2 := splitCh_append isDigitCh r2
    rw [heq] at hs
    split at h
    · split at h
      · exact absurd h (by simp)
      · simp only [Option.some.injEq, Prod.mk.injEq] at h
        rw [← h.1, ← h.2]
        exact hs
    · simp only [Option.some.injEq, Prod.mk.injEq] at h
      rw [← h.1, ← h.2, List.append_assoc, List.cons_append, hs2]
      exact hs
  next =>
    split at h
    · exact absurd h (by simp)
    · simp only [Option.some.injEq, Prod.mk.injEq] at h
      rw [← h.1, ← h.2]
      exact hs

theorem numSplitB_append (s t r : List Char) (h : numSplitB s = some (t, r)) :
    t ++ r = s := by
  have hs := splitCh_append isDigitCh s
  unfold numSplitB at h
  split at h
  · exact absurd h (by simp)
  · split at h
    next r2 heq =>
      have hs2 := splitCh_append isDigitCh r2
      rw [heq] at hs
      simp only [Option.some.injEq, Prod.mk.injEq] at h
      rw [← h.1, ← h.2, List.append_assoc, List.cons_append, hs2]
      exact hs
    next =>
      simp only [Option.some.injEq, Prod.mk.injEq] at h
      rw [← h.1, ← h.2]
      exact hs

/-- One colour-operator regex: operand style (`true` for `\d*\.?\d+`, `false`
for `\d+\.?\d*`), operand count, operator token (head and tail characters, so
it is nonempty by construction), and whether the pattern ends in `\b`. -/
structure PatSpec where
  styleA : Bool
  nOps : Nat
  opH : Char
  opT : List Char
  bounded : Bool

/-- The operand matcher selected by a pattern's style. -/
def numSplit (styleA : Bool) : List Char → Option (List Char × List Char) :=
  if styleA then numSplitA else numSplitB

/-- Greedy match of `n` repetitions of operand-then-`\s+` at the head of `s`:
returns the consumed characters, the list of operand capture groups, and the
rest. -/
def opsSplit (styleA : Bool) : Nat → List Char → Option (List Char × List (List Char) × List Char)
  | 0, s => some ([], [], s)
  | n + 1, s =>
    match numSplit styleA s with
    | none => none
    | some (num, r1) =>
      if ((splitCh isSpaceCh r1).1).isEmpty then none
      else
        match opsSplit styleA n ((splitCh isSpaceCh r1).2) with
        | none => none
        | some (t, gs, r3) => some (num ++ (splitCh isSpaceCh r1).1 ++ t, num :: gs, r3)

theorem opsSplit_append (styleA : Bool) (n : Nat) (s t r : List Char)
    (gs : List (List Char)) (h : opsSplit styleA n s = some (t, gs, r)) :
    t ++ r = s := by
  induction n generalizing s t gs r with
  | zero =>
    unfold opsSplit at h
    simp only [Option.some.injEq, Prod.mk.injEq] at h
    rw [← h.1, ← h.2.2]
    rfl
  | succ n ih =>
    unfold opsSplit at h
    split at h
    · exact absurd h (by simp)
    next num r1 hnum =>
      have hn : num ++ r1 = s := by
        by_cases hA : styleA
        · refine numSplitA_append s num r1 ?_
          rw [← hnum]
          unfold numSplit
          rw [if_pos hA]
        · refine numSplitB_append s num r1 ?_
          rw [← hnum]
          unfold numSplit
          rw [if_neg hA]
      split at h
      · exact absurd h (by simp)
      · split at h
        · exact absurd h (by simp)
        next t2 gs2 r3 hops =>
          have hsp := splitCh_append isSpaceCh r1
          have ht2 := ih _ _ _ _ hops
          simp only [Option.some.injEq, Prod.mk.injEq] at h
          rw [← h.1, ← h.2.2, List.append_assoc, List.append_assoc, ht2, hsp]
          exact hn

/-- Consume an exact literal token from the head of `s`. -/
def dropTok : List Char → List Char → Option (List Char)
  | [], s => some s
  | _ :: _, [] => none
  | c :: t, d :: s => if c = d then dropTok t s else none

theorem dropTok_append (tok s r : List Char) (h : dropTok tok s = some r) :
    tok ++ r = s := by
  induction tok generalizing s with
  | nil =>
    unfold dropTok at h
    simp only [Option.some.injEq] at h
    rw [h]
    rfl
  | cons c t ih =>
    cases s with
    | nil => exact absurd h (by simp [dropTok])
    | cons d s2 =>
      unfold dropTok at h
      split at h
      next hcd =>
        rw [hcd]
        simpa using ih s2 h
      · exact absurd h (by simp)

/-- Is the head character (if any) a `\w` character?  Used to evaluate the
trailing `\b` of the `g`, `G`, `k` and `K` patterns: after the operator the
pattern requires a non-word character or the end of the text. -/
def wordAhead : List Char → Bool
  | [] => false
  | c :: _ => isWordCh c

/-- Greedy match of one whole colour-operator pattern at the head of `s`:
`nOps` operands each followed by `\s+`, the operator token, and (when
`bounded`) a word-boundary check.  Returns the full matched span, the operand
capture groups, and the rest of the text. -/
def matchAtS (p : PatSpec) (s : List Char) :
    Option (List Char × List (List Char) × List Char) :=
  match opsSplit p.styleA p.nOps s with
  | none => none
  | some (t, gs, r) =>
    match dropTok (p.opH :: p.opT) r with
    | none => none
    | some r2 =>
      if p.bounded && wordAhead r2 then none
      else some (t ++ p.opH :: p.opT, gs, r2)

theorem matchAtS_append (p : PatSpec) (s t r : List Char) (gs : List (List Char))
    (h : matchAtS p s = some (t, gs, r)) : t ++ r = s := by
  unfold matchAtS at h
  split at h
  · exact absurd h (by simp)
  next t1 gs1 r1 hops =>
    split at h
    · exact absurd h (by simp)
    next r2 htok =>
      split at h
      · exact absurd h (by simp)
      · simp only [Option.some.injEq, Prod.mk.injEq] at h
        have h1 := opsSplit_append p.styleA p.nOps s t1 r1 gs1 hops
        have h2 := dropTok_append (p.opH :: p.opT) r1 r2 htok
        rw [← h.1, ← h.2.2, List.append_assoc, List.cons_append, ← List.cons_append,
          h2]
        exact h1

theorem matchAtS_rest_lt (p : PatSpec) (s t r : List Char) (gs : List (List Char))
    (h : matchAtS p s = some (t, gs, r)) : r.length < s.length := by
  have happ := matchAtS_append p s t r gs h
  have hne : t ≠ [] := by
    unfold matchAtS at h
    split at h
    · exact absurd h (by simp)
    · split at h
      · exact absurd h (by simp)
      · split at h
        · exact absurd h (by simp)
        · simp only [Option.some.injEq, Prod.mk.injEq] at h
          rw [← h.1]
          simp
  have := congrArg List.length happ
  rw [List.length_append] at this
  have ht : 0 < t.length := List.length_pos.mpr hne
  omega

/-- One `re.sub` segment: either a single character passed through unchanged,
or a whole matched occurrence together with its replacement text. -/
inductive Seg where
  | lit : Char → Seg
  | rw : List Char → List Char → Seg

/-- The source characters a segment covers. -/
def segSrc : Seg → List Char
  | .lit c => [c]
  | .rw src _ => src

/-- The output characters a segment produces. -/
def segOut : Seg → List Char
  | .lit c => [c]
  | .rw _ o => o

/-- One `re.sub` pass: a pattern and the replacement function applied to the
capture groups of each match. -/
structure Pass where
  spec : PatSpec
  repl : List (List Char) → List Char

/-- The leftmost non-overlapping sweep of one `re.sub` pass, fuelled so that
it is structurally recursive (every match consumes at least one character, so
`s.length` fuel is always enough; see `subSegsF_fuel_irrel`).  The sweep
records a list of segments: `Seg.lit` for characters outside every match,
`Seg.rw` for each match and its replacement. -/
def subSegsF (p : Pass) : Nat → List Char → List Seg
  | _, [] => []
  | 0, _ :: _ => []
  | fuel + 1, c :: rest =>
    match matchAtS p.spec (c :: rest) with
    | some (t, gs, r) => Seg.rw t (p.repl gs) :: subSegsF p fuel r
    | none => Seg.lit c :: subSegsF p fuel rest

/-- The leftmost non-overlapping sweep of one `re.sub` pass. -/
def subSegs (p : Pass) (s : List Char) : List Seg := subSegsF p s.length s

/-- The output text of one `re.sub` pass. -/
def runPass (p : Pass) (s : List Char) : List Char :=
  ((subSegs p s).map segOut).flatten

/-- Run a list of `re.sub` passes in order, each over the previous output. -/
def runPasses : List Pass → List Char → List Char
  | [], s => s
  | p :: ps, s => runPasses ps (runPass p s)

/-!
## Colour math and the tone remapper (`_rgb_to_hsv`, `_hsv_to_rgb`,
`_transform_rgb`, `_transform_grayscale`, `_transform_cmyk`)
-/

/-- A theme background colour: three 8-bit channel values. -/
structure Bg where
  r : Int
  g : Int
  b : Int

/-- The six built-in themes of `PDFVectorProcessorPikePDF.__init__`. -/
def themes : List (List Char × Bg) :=
  [("classic".toList, ⟨0, 0, 0⟩), ("claude".toList, ⟨42, 37, 34⟩),
   ("chatgpt".toList, ⟨52, 53, 65⟩), ("sepia".toList, ⟨40, 35, 25⟩),
   ("midnight".toList, ⟨25, 30, 45⟩), ("forest".toList, ⟨25, 35, 30⟩)]

/-- Theme lookup `self.themes.get(theme, ...)`, falling back to classic. -/
def themeBg (name : List Char) : Bg :=
  match themes.find? (fun p => p.1 == name) with
  | some p => p.2
  | none => ⟨0, 0, 0⟩

/-- The function `_rgb_to_hsv`: hue from the 6-sector formula (wrapped into `[0, 360)` by
Python's float `%` and then normalised), saturation `diff / max` (0 for black),
value `max`.  On ties the `max_val == r` branch is checked first, then
`max_val == g`, exactly as in the source. -/
def rgbToHsv (r g b : Q) : Q × Q × Q :=
  let maxv := r.max2 (g.max2 b)
  let minv := r.min2 (g.min2 b)
  let diff := maxv.sub minv
  let h :=
    if diff.qeq (qOf 0) then qOf 0
    else if maxv.qeq r then (((qOf 60).mul ((g.sub b).div diff)).add (qOf 360)).qmod (qOf 360)
    else if maxv.qeq g then (((qOf 60).mul ((b.sub r).div diff)).add (qOf 120)).qmod (qOf 360)
    else (((qOf 60).mul ((r.sub g).div diff)).add (qOf 240)).qmod (qOf 360)
  let s := if maxv.qeq (qOf 0) then qOf 0 else diff.div maxv
  (h.div (qOf 360), s, maxv)

/-- The function `_hsv_to_rgb`: chroma/offset reconstruction with the six 60-degree
sectors, the last `else` catching everything outside `[0, 300)`. -/
def hsvToRgb (h s v : Q) : Q × Q × Q :=
  let H := h.mul (qOf 360)
  let c := v.mul s
  let x := c.mul ((qOf 1).sub ((((H.div (qOf 60)).qmod (qOf 2)).sub (qOf 1)).qabs))
  let m := v.sub c
  let rgb :=
    if (qOf 0).le H ∧ H.lt (qOf 60) then (c, x, qOf 0)
    else if (qOf 60).le H ∧ H.lt (qOf 120) then (x, c, qOf 0)
    else if (qOf 120).le H ∧ H.lt (qOf 180) then (qOf 0, c, x)
    else if (qOf 180).le H ∧ H.lt (qOf 240) then (qOf 0, x, c)
    else if (qOf 240).le H ∧ H.lt (qOf 300) then (x, qOf 0, c)
    else (c, qOf 0, x)
  (rgb.1.add m, rgb.2.1.add m, rgb.2.2.add m)

/-- The perceived-brightness formula `0.299*r + 0.587*g + 0.114*b`. -/
def brightnessOf (r g b : Q) : Q :=
  (((qd 299 1000).mul r).add ((qd 587 1000).mul g)).add ((qd 114 1000).mul b)

/-- The function `_transform_rgb`: the tiered brightness/saturation remapping policy.  The
source recomputes `_rgb_to_hsv(r, g, b)` in the later tiers; being pure, it is
computed once here. -/
def transformRgb (bg : Bg) (r g b : Q) : Q × Q × Q :=
  let brightness := brightnessOf r g b
  if (qd 93 100).lt brightness then
    ((qOf bg.r).div (qOf 255), (qOf bg.g).div (qOf 255), (qOf bg.b).div (qOf 255))
  else
    let hsv := rgbToHsv r g b
    let h := hsv.1
    let s := hsv.2.1
    let v := hsv.2.2
    if brightness.lt (qd 15 100) ∧ s.lt (qd 3 10) then
      (qd 98 100, qd 98 100, qd 98 100)
    else if brightness.lt (qd 15 100) then
      let v2 := (qd 65 100).add ((v.div (qd 15 100)).mul (qd 2 10))
      let s2 := (s.mul (qd 11 10)).min2 (qOf 1)
      let nrgb := hsvToRgb h s2 v2
      ((nrgb.1.max2 (qOf 0)).min2 (qOf 1), (nrgb.2.1.max2 (qOf 0)).min2 (qOf 1),
        (nrgb.2.2.max2 (qOf 0)).min2 (qOf 1))
    else if brightness.lt (qd 4 10) then
      hsvToRgb h (s.mul (qd 85 100)) ((qd 75 100).add ((v.sub (qd 15 100)).mul (qd 8 10)))
    else if brightness.lt (qd 6 10) then
      hsvToRgb h (s.mul (qd 9 10)) ((qd 65 100).add ((v.sub (qd 4 10)).mul (qOf 1)))
    else
      hsvToRgb h s ((qd 5 10).add (v.mul (qd 5 10)))

/-- The function `_transform_grayscale`: the single-channel remapping policy. -/
def transformGrayscale (bg : Bg) (gray : Q) : Q :=
  if (qd 93 100).lt gray then
    ((((qd 299 1000).mul (qOf bg.r)).add ((qd 587 1000).mul (qOf bg.g))).add
      ((qd 114 1000).mul (qOf bg.b))).div (qOf 255)
  else if gray.lt (qd 15 100) then qd 98 100
  else if gray.lt (qd 4 10) then (qd 75 100).add ((gray.sub (qd 15 100)).mul (qd 8 10))
  else if gray.lt (qd 6 10) then (qd 65 100).add ((gray.sub (qd 4 10)).mul (qOf 1))
  else (qd 5 10).add (gray.mul (qd 5 10))

/-- The CMYK→RGB conversion inlined at the top of `_transform_cmyk`:
`r = (1-c)(1-k)` etc. -/
def cmykToRgb (c m y k : Q) : Q × Q × Q :=
  (((qOf 1).sub c).mul ((qOf 1).sub k), ((qOf 1).sub m).mul ((qOf 1).sub k),
    ((qOf 1).sub y).mul ((qOf 1).sub k))

/-- The RGB→CMYK conversion inlined at the bottom of `_transform_cmyk`:
`k = 1 - max(r,g,b)`; if `k < 1` then `c = (1-r-k)/(1-k)` etc., otherwise
`c = m = y = 0`. -/
def rgbToCmyk (r g b : Q) : Q × Q × Q × Q :=
  let k := (qOf 1).sub (r.max2 (g.max2 b))
  if k.lt (qOf 1) then
    ((((qOf 1).sub r).sub k).div ((qOf 1).sub k),
      (((qOf 1).sub g).sub k).div ((qOf 1).sub k),
      (((qOf 1).sub b).sub k).div ((qOf 1).sub k), k)
  else (qOf 0, qOf 0, qOf 0, k)

/-- The convert-back half of `_transform_cmyk`: the exact special case
`new_r == new_g == new_b == 0 → (0, 0, 0, 1)`, otherwise the general RGB→CMYK
inverse. -/
def transformCmykBack (nrgb : Q × Q × Q) : Q × Q × Q × Q :=
  if nrgb.1.qeq (qOf 0) ∧ nrgb.2.1.qeq (qOf 0) ∧ nrgb.2.2.qeq (qOf 0) then
    (qOf 0, qOf 0, qOf 0, qOf 1)
  else rgbToCmyk nrgb.1 nrgb.2.1 nrgb.2.2

/-- The function `_transform_cmyk`: convert to RGB, remap as RGB, convert back. -/
def transformCmyk (bg : Bg) (c m y k : Q) : Q × Q × Q × Q :=
  transformCmykBack (transformRgb bg (cmykToRgb c m y k).1 (cmykToRgb c m y k).2.1
    (cmykToRgb c m y k).2.2)

/-!
## Operand parsing (`float(...)`) and replacement formatting (`f"{x:.4f}"`)
-/

/-- Numeric value of an ASCII digit. -/
def digitVal (c : Char) : Nat := c.toNat - 48

/-- Value of a digit string (most significant first). -/
def digitsVal : List Char → Nat → Nat
  | [], acc => acc
  | c :: cs, acc => digitsVal cs (acc * 10 + digitVal c)

/-- Python `float(...)` on a captured operand (digits with at most one dot). -/
def parseNum (s : List Char) : Q :=
  match (splitCh isDigitCh s).2 with
  | '.' :: fr =>
    qd ((digitsVal (splitCh isDigitCh s).1 0 * 10 ^ ((splitCh isDigitCh fr).1).length
        + digitsVal ((splitCh isDigitCh fr).1) 0 : Nat) : Int)
      (((10 : Nat) ^ ((splitCh isDigitCh fr).1).length : Nat) : Int)
  | _ => qOf ((digitsVal (splitCh isDigitCh s).1 0 : Nat) : Int)

/-- Round `a * 10^4` to the nearest integer, ties to even (Python's float
formatting rounding). -/
def roundHE (a : Q) : Int :=
  let t := a.n * 10000
  let q := t.fdiv a.d
  let r := t.fmod a.d
  if 2 * r < a.d then q
  else if a.d < 2 * r then q + 1
  else if q % 2 = 0 then q else q + 1

/-- The ASCII digit character for `n < 10`. -/
def digitChar (n : Nat) : Char := Char.ofNat (48 + n)

/-- Decimal digits of `n` (fuel-driven so it is structurally recursive). -/
def natDigitsAux : Nat → Nat → List Char
  | 0, _ => []
  | fuel + 1, n => if n = 0 then [] else natDigitsAux fuel (n / 10) ++ [digitChar (n % 10)]

/-- Decimal rendering of a natural number. -/
def natStr (n : Nat) : List Char := if n = 0 then ['0'] else natDigitsAux (n + 1) n

/-- Zero-pad on the left to width `w`. -/
def padZero (w : Nat) (s : List Char) : List Char :=
  List.replicate (w - s.length) '0' ++ s

/-- Rendering of `f"{a:.4f}"` for `0 ≤ a`. -/
def fmt4core (a : Q) : List Char :=
  natStr ((roundHE a).toNat / 10000) ++ '.' :: padZero 4 (natStr ((roundHE a).toNat % 10000))

/-- Python `f"{a:.4f}"`. -/
def fmt4 (a : Q) : List Char :=
  if a.lt (qOf 0) then '-' :: fmt4core a.qabs else fmt4core a

/-- The `i`-th capture group of a match, as a number. -/
def group (gs : List (List Char)) (i : Nat) : Q := parseNum (gs.getD i [])

/-- The callback `_replace_rgb`: `f"{r:.4f} {g:.4f} {b:.4f} {op}"` (no trailing space). -/
def replaceRgb (bg : Bg) (op : List Char) (gs : List (List Char)) : List Char :=
  let t := transformRgb bg (group gs 0) (group gs 1) (group gs 2)
  fmt4 t.1 ++ ' ' :: fmt4 t.2.1 ++ ' ' :: fmt4 t.2.2 ++ ' ' :: op

/-- The callback `_replace_gray`: `f"{v:.4f} {op} "` (with trailing space). -/
def replaceGray (bg : Bg) (op : List Char) (gs : List (List Char)) : List Char :=
  fmt4 (transformGrayscale bg (group gs 0)) ++ ' ' :: op ++ [' ']

/-- The callback `_replace_cmyk`: `f"{c:.4f} {m:.4f} {y:.4f} {k:.4f} {op} "`
(with trailing space). -/
def replaceCmyk (bg : Bg) (op : List Char) (gs : List (List Char)) : List Char :=
  let t := transformCmyk bg (group gs 0) (group gs 1) (group gs 2) (group gs 3)
  fmt4 t.1 ++ ' ' :: fmt4 t.2.1 ++ ' ' :: fmt4 t.2.2.1 ++ ' ' :: fmt4 t.2.2.2 ++
    ' ' :: op ++ [' ']

/-!
## The six passes of `_transform_content_stream`
-/

/-- The pattern `(\d*\.?\d+)\s+(\d*\.?\d+)\s+(\d*\.?\d+)\s+rg` (no word boundary). -/
def rgSpec : PatSpec := ⟨true, 3, 'r', ['g'], false⟩

/-- The pattern `(\d*\.?\d+)\s+(\d*\.?\d+)\s+(\d*\.?\d+)\s+RG` (no word boundary). -/
def RGSpec : PatSpec := ⟨true, 3, 'R', ['G'], false⟩

/-- The pattern `(\d+\.?\d*)\s+g\b`. -/
def gSpec : PatSpec := ⟨false, 1, 'g', [], true⟩

/-- The pattern `(\d+\.?\d*)\s+G\b`. -/
def GSpec : PatSpec := ⟨false, 1, 'G', [], true⟩

/-- The pattern `(\d+\.?\d*)\s+(\d+\.?\d*)\s+(\d+\.?\d*)\s+(\d+\.?\d*)\s+k\b`. -/
def kSpec : PatSpec := ⟨false, 4, 'k', [], true⟩

/-- The pattern `(\d+\.?\d*)\s+(\d+\.?\d*)\s+(\d+\.?\d*)\s+(\d+\.?\d*)\s+K\b`. -/
def KSpec : PatSpec := ⟨false, 4, 'K', [], true⟩

def rgPass (bg : Bg) : Pass := ⟨rgSpec, replaceRgb bg ['r', 'g']⟩

def RGPass (bg : Bg) : Pass := ⟨RGSpec, replaceRgb bg ['R', 'G']⟩

def gPass (bg : Bg) : Pass := ⟨gSpec, replaceGray bg ['g']⟩

def GPass (bg : Bg) : Pass := ⟨GSpec, replaceGray bg ['G']⟩

def kPass (bg : Bg) : Pass := ⟨kSpec, replaceCmyk bg ['k']⟩

def KPass (bg : Bg) : Pass := ⟨KSpec, replaceCmyk bg ['K']⟩

/-- The six `re.sub` passes in source order: `rg, RG, g, G, k, K`. -/
def passes (bg : Bg) : List Pass :=
  [rgPass bg, RGPass bg, gPass bg, GPass bg, kPass bg, KPass bg]

/-- The function `_transform_content_stream`: the six sequential `re.sub` passes. -/
def transformContentStream (bg : Bg) (s : List Char) : List Char :=
  runPasses (passes bg) s

/-!
## The frame property of `re.sub`

Each pass decomposes its input into single pass-through characters and whole
matched occurrences; the output is the same decomposition with each matched
occurrence replaced and every pass-through character kept, in order.
-/

theorem subSegsF_src (p : Pass) (fuel : Nat) (s : List Char) (hf : s.length ≤ fuel) :
    ((subSegsF p fuel s).map segSrc).flatten = s := by
  induction fuel generalizing s with
  | zero =>
    cases s with
    | nil => rfl
    | cons c rest => simp at hf
  | succ fuel ih =>
    cases s with
    | nil => rfl
    | cons c rest =>
      rw [subSegsF]
      cases hm : matchAtS p.spec (c :: rest) with
      | none =>
        simp only [List.map_cons, List.flatten_cons, segSrc]
        rw [ih rest (by simpa using Nat.le_of_succ_le_succ hf)]
        rfl
      | some x =>
        obtain ⟨t, gs, r⟩ := x
        have happ := matchAtS_append p.spec (c :: rest) t r gs hm
        have hlt := matchAtS_rest_lt p.spec (c :: rest) t r gs hm
        simp only [List.map_cons, List.flatten_cons, segSrc]
        rw [ih r (by simp at hlt hf ⊢; omega)]
        exact happ

theorem subSegsF_rw (p : Pass) (fuel : Nat) (s : List Char) (src out : List Char)
    (hmem : Seg.rw src out ∈ subSegsF p fuel s) :
    ∃ rest gs, matchAtS p.spec (src ++ rest) = some (src, gs, rest) ∧
      out = p.repl gs := by
  induction fuel generalizing s with
  | zero =>
    cases s with
    | nil => simp [subSegsF] at hmem
    | cons c rest => simp [subSegsF] at hmem
  | succ fuel ih =>
    cases s with
    | nil => simp [subSegsF] at hmem
    | cons c rest =>
      rw [subSegsF] at hmem
      revert hmem
      cases hm : matchAtS p.spec (c :: rest) with
      | none =>
        intro hmem
        rcases List.mem_cons.mp hmem with hhead | htail
        · exact absurd hhead (by simp)
        · exact ih rest htail
      | some x =>
        obtain ⟨t, gs, r⟩ := x
        intro hmem
        rcases List.mem_cons.mp hmem with hhead | htail
        · have h1 : src = t ∧ out = p.repl gs := by
            constructor
            · exact (Seg.rw.injEq .. ▸ hhead).1
            · exact (Seg.rw.injEq .. ▸ hhead).2
          refine ⟨r, gs, ?_, h1.2⟩
          rw [h1.1, matchAtS_append p.spec (c :: rest) t r gs hm]
          exact hm
        · exact ih r htail

/-- One `re.sub` pass relates input to output through a segment decomposition:
pass-through characters are preserved in order, and every rewritten segment is
a whole match of the pass's pattern (its source, followed by the rest of the
text at that point, is matched with exactly that source consumed), replaced by
the pass's replacement for its capture groups. -/
def FrameStep (p : Pass) (x y : List Char) : Prop :=
  ∃ segs : List Seg,
    (segs.map segSrc).flatten = x ∧
    (segs.map segOut).flatten = y ∧
    ∀ src out, Seg.rw src out ∈ segs →
      ∃ rest gs, matchAtS p.spec (src ++ rest) = some (src, gs, rest) ∧
        out = p.repl gs

theorem frameStep_runPass (p : Pass) (s : List Char) : FrameStep p s (runPass p s) :=
  ⟨subSegs p s, subSegsF_src p s.length s (le_refl _), rfl,
    fun src out hmem => subSegsF_rw p s.length s src out hmem⟩

/-- A sequence of `re.sub` passes, each a `FrameStep` over the previous
output. -/
inductive FrameChain : List Pass → List Char → List Char → Prop
  | nil (x : List Char) : FrameChain [] x x
  | cons {p : Pass} {ps : List Pass} {x y z : List Char} :
      FrameStep p x y → FrameChain ps y z → FrameChain (p :: ps) x z

theorem frameChain_runPasses (ps : List Pass) (s : List Char) :
    FrameChain ps s (runPasses ps s) := by
  induction ps generalizing s with
  | nil => exact .nil s
  | cons p ps ih => exact .cons (frameStep_runPass p s) (ih (runPass p s))

/-!
## Claims about the Operator Scanner/Rewriter
-/

/-- C1: for every input content stream, the six-pass transform factors as a
chain of `re.sub` passes, each of which decomposes its input into pass-through
characters — every byte not part of a recognized colour-operator occurrence,
emitted unchanged and in the same relative order — and whole matched
occurrences, the only spans that are rewritten. -/
theorem c1_unmatched_bytes_passthrough (bg : Bg) (content : List Char) :
    FrameChain (passes bg) content (transformContentStream bg content) :=
  frameChain_runPasses (passes bg) content

/-- C2, counterexample: the claimed operand grammar is wrong on two counts.
The `g`-family operand regex `\d+\.?\d*` does not match the form `.5` (its
scan of the stream `.5 g` skips the dot and matches only `5 g`, with operand
`5`), and no family matches signed operands: the rg-family scan of
`-0.5 -0.5 -0.5 rg` matches with the minus signs excluded from the occurrence,
so the signed form `-0.5` is never an operand (only `0.5` is). -/
theorem c2_cex_dotfive_and_sign_not_matched :
    numSplitB ".5".toList = none ∧
    matchAtS gSpec ".5 g".toList = none ∧
    matchAtS gSpec "5 g".toList = some ("5 g".toList, ["5".toList], []) ∧
    numSplitA "-0.5".toList = none ∧
    matchAtS rgSpec "-0.5 -0.5 -0.5 rg".toList = none := by decide

/-- C2, amended: for the `rg`/`RG` families the unsigned operand forms `0`,
`0.5`, `.5`, `1.0` are all matched as numeric operands, with operands
separated by one-or-more whitespace characters; for the `g`/`G`/`k`/`K`
families the operand needs a leading digit (`0`, `0.5`, `1.0`, `7.` match,
`.5` does not), and a sign is never part of an operand for any family. -/
theorem c2_amended_operand_grammar :
    numSplitA "0".toList = some ("0".toList, []) ∧
    numSplitA "0.5".toList = some ("0.5".toList, []) ∧
    numSplitA ".5".toList = some (".5".toList, []) ∧
    numSplitA "1.0".toList = some ("1.0".toList, []) ∧
    numSplitB "0".toList = some ("0".toList, []) ∧
    numSplitB "0.5".toList = some ("0.5".toList, []) ∧
    numSplitB "1.0".toList = some ("1.0".toList, []) ∧
    numSplitB "7.".toList = some ("7.".toList, []) ∧
    numSplitB ".5".toList = none ∧
    numSplitA "-0.5".toList = none ∧
    numSplitB "-0.5".toList = none ∧
    matchAtS rgSpec "0 0.5 .5 rg".toList =
      some ("0 0.5 .5 rg".toList, ["0".toList, "0.5".toList, ".5".toList], []) ∧
    matchAtS kSpec "0  0.5   1.0 7. k".toList =
      some ("0  0.5   1.0 7. k".toList,
        ["0".toList, "0.5".toList, "1.0".toList, "7.".toList], []) :=
  ⟨by decide, by decide, by decide, by decide, by decide, by decide, by decide,
    by decide, by decide, by decide, by decide, by decide, by decide⟩

/-- C3: the claim is right and the code is a slip.  The code's own docstring
says the operators use word boundaries to avoid matching inside tokens, yet the
`rg`/`RG` patterns have no `\b`: on the stream `1 1 1 rgx` the `rg` pass
rewrites `1 1 1 rg` inside the longer identifier `rgx`. -/
theorem c3_rg_matches_prefix_of_longer_token :
    transformContentStream (themeBg "classic".toList) "1 1 1 rgx".toList
      = "0.0000 0.0000 0.0000 rgx".toList := by decide

/-- C6: the content stream `"1.0 1.0 1.0 rg 0 0 0 RG"` with theme "classic"
transforms to exactly `"0.0000 0.0000 0.0000 rg 0.9800 0.9800 0.9800 RG"`. -/
theorem c6_classic_scenario :
    transformContentStream (themeBg "classic".toList)
      "1.0 1.0 1.0 rg 0 0 0 RG".toList
      = "0.0000 0.0000 0.0000 rg 0.9800 0.9800 0.9800 RG".toList := by decide

/-- C9: a malformed occurrence (operands that are not numbers, here
`x y z rg`) is never matched — no family's scan matches at any position of
that substring — so it is left byte-for-byte unchanged, the scan does not
abort, and a well-formed occurrence later in the same stream is still
transformed. -/
theorem c9_malformed_occurrence_skipped :
    (("x y z rg".toList).tails.all (fun t =>
      (matchAtS rgSpec t).isNone && (matchAtS RGSpec t).isNone &&
      (matchAtS gSpec t).isNone && (matchAtS GSpec t).isNone &&
      (matchAtS kSpec t).isNone && (matchAtS KSpec t).isNone)) = true ∧
    transformContentStream (themeBg "classic".toList) "x y z rg 1 1 1 rg".toList
      = "x y z rg 0.0000 0.0000 0.0000 rg".toList :=
  ⟨by decide, by decide⟩

/-!
## Claims about the Tone Classifier & Remapper
-/

/-- C7: for every gray value `g ∈ [0,1]`, `_transform_grayscale` returns
exactly: the theme background's luma `(0.299r+0.587g+0.114b)/255` when
`g > 0.93`; `0.98` when `g < 0.15`; `0.75+(g-0.15)*0.8` on `[0.15,0.40)`;
`0.65+(g-0.4)*1.0` on `[0.40,0.60)`; and `0.5+g*0.5` otherwise. -/
theorem c7_gray_policy (bg : Bg) (g : Q) (h0 : 0 ≤ g.toRat) (h1 : g.toRat ≤ 1) :
    (93/100 < g.toRat →
      (transformGrayscale bg g).toRat =
        (299/1000 * (bg.r : ℚ) + 587/1000 * (bg.g : ℚ) + 114/1000 * (bg.b : ℚ)) / 255) ∧
    (g.toRat < 15/100 → (transformGrayscale bg g).toRat = 98/100) ∧
    (15/100 ≤ g.toRat → g.toRat < 40/100 →
      (transformGrayscale bg g).toRat = 75/100 + (g.toRat - 15/100) * (8/10)) ∧
    (40/100 ≤ g.toRat → g.toRat < 60/100 →
      (transformGrayscale bg g).toRat = 65/100 + (g.toRat - 40/100) * 1) ∧
    (60/100 ≤ g.toRat → g.toRat ≤ 93/100 →
      (transformGrayscale bg g).toRat = 5/10 + g.toRat * (5/10)) := by
  refine ⟨fun hg => ?_, fun hg => ?_, fun hga hgb => ?_, fun hga hgb => ?_,
    fun hga hgb => ?_⟩
  · unfold transformGrayscale
    rw [if_pos (by rw [Q.lt_iff, qd_toRat]; push_cast; linarith)]
    simp only [Q.div_toRat, Q.add_toRat, Q.mul_toRat, qd_toRat, qOf_toRat]
    push_cast
    ring
  · unfold transformGrayscale
    rw [if_neg (by rw [Q.lt_iff, qd_toRat]; push_cast; linarith),
      if_pos (by rw [Q.lt_iff, qd_toRat]; push_cast; linarith)]
    rw [qd_toRat]
    norm_num
  · unfold transformGrayscale
    rw [if_neg (by rw [Q.lt_iff, qd_toRat]; push_cast; linarith),
      if_neg (by rw [Q.lt_iff, qd_toRat]; push_cast; linarith),
      if_pos (by rw [Q.lt_iff, qd_toRat]; push_cast; linarith)]
    simp only [Q.add_toRat, Q.sub_toRat, Q.mul_toRat, qd_toRat]
    push_cast
    ring
  · unfold transformGrayscale
    rw [if_neg (by rw [Q.lt_iff, qd_toRat]; push_cast; linarith),
      if_neg (by rw [Q.lt_iff, qd_toRat]; push_cast; linarith),
      if_neg (by rw [Q.lt_iff, qd_toRat]; push_cast; linarith),
      if_pos (by rw [Q.lt_iff, qd_toRat]; push_cast; linarith)]
    simp only [Q.add_toRat, Q.sub_toRat, Q.mul_toRat, qd_toRat, qOf_toRat]
    push_cast
    ring
  · unfold transformGrayscale
    rw [if_neg (by rw [Q.lt_iff, qd_toRat]; push_cast; linarith),
      if_neg (by rw [Q.lt_iff, qd_toRat]; push_cast; linarith),
      if_neg (by rw [Q.lt_iff, qd_toRat]; push_cast; linarith),
      if_neg (by rw [Q.lt_iff, qd_toRat]; push_cast; linarith)]
    simp only [Q.add_toRat, Q.mul_toRat, qd_toRat]
    push_cast
    ring

/-- Witness for C7 at the concrete input `g = 0` (classic theme):
`0 < 0.15`, so the policy returns `0.98`. -/
theorem c7_gray_policy_witness :
    (transformGrayscale ⟨0, 0, 0⟩ (qOf 0)).toRat = 98/100 :=
  (c7_gray_policy ⟨0, 0, 0⟩ (qOf 0) (by rw [qOf_toRat]; norm_num)
    (by rw [qOf_toRat]; norm_num)).2.1 (by rw [qOf_toRat]; norm_num)

/-- Componentwise clamping `min(max(a, 0), 1)` into `[0, 1]` as described by
the specification (the claimed pre-classification clamp). -/
def clamp01 (a : Q) : Q := (a.max2 (qOf 0)).min2 (qOf 1)

/-- C5, counterexample: no clamping happens in the RGB remapper.  At the
out-of-range input `(1.5, 0, 0)` its result differs from its result at the
componentwise-clamped input `(1, 0, 0)` (first channel `1.75` versus `1.43`),
refuting the claim that the remapper's result on any out-of-range input
equals its result on the clamped input. -/
theorem c5_cex_rgb_not_clamped :
    ¬ ((transformRgb ⟨0, 0, 0⟩ (qd 3 2) (qOf 0) (qOf 0)).1.qeq
        (transformRgb ⟨0, 0, 0⟩ (clamp01 (qd 3 2)) (clamp01 (qOf 0))
          (clamp01 (qOf 0))).1) := by decide

/-- C5, amended: only the single-channel gray remapper behaves as if its
input were clamped into `[0,1]`: its result on any input equals its result on
the componentwise-clamped input (the RGB and CMYK remappers do not clamp, and
no remapper raises an error — all are total functions). -/
theorem c5_amended_gray_effectively_clamped (bg : Bg) (g : Q) :
    transformGrayscale bg g = transformGrayscale bg (clamp01 g) := by
  by_cases hneg : g.lt (qOf 0)
  · have hg : g.toRat < 0 := by
      have := (Q.lt_iff g (qOf 0)).mp hneg
      rw [qOf_toRat] at this
      exact_mod_cast this
    have hc : clamp01 g = qOf 0 := by
      unfold clamp01 Q.max2 Q.min2
      rw [if_pos hneg, if_neg (by decide)]
    rw [hc]
    unfold transformGrayscale
    rw [if_neg (by rw [Q.lt_iff, qd_toRat]; push_cast; linarith),
      if_pos (by rw [Q.lt_iff, qd_toRat]; push_cast; linarith),
      if_neg (by decide), if_pos (by decide)]
  · by_cases hbig : (qOf 1).lt g
    · have hg : 1 < g.toRat := by
        have := (Q.lt_iff (qOf 1) g).mp hbig
        rw [qOf_toRat] at this
        exact_mod_cast this
      have hc : clamp01 g = qOf 1 := by
        unfold clamp01 Q.max2 Q.min2
        rw [if_neg hneg, if_pos hbig]
      rw [hc]
      unfold transformGrayscale
      rw [if_pos (by rw [Q.lt_iff, qd_toRat]; push_cast; linarith),
        if_pos (by decide)]
    · have hc : clamp01 g = g := by
        unfold clamp01 Q.max2 Q.min2
        rw [if_neg hneg, if_neg hbig]
      rw [hc]

theorem max2_cases (a b : Q) : a.max2 b = a ∨ a.max2 b = b := by
  unfold Q.max2
  by_cases h : a.lt b
  · rw [if_pos h]
    right
    rfl
  · rw [if_neg h]
    left
    rfl

theorem rgbToCmyk_component_zero (r g b : Q) :
    (rgbToCmyk r g b).1.toRat = 0 ∨ (rgbToCmyk r g b).2.1.toRat = 0 ∨
      (rgbToCmyk r g b).2.2.1.toRat = 0 := by
  unfold rgbToCmyk
  simp only []
  by_cases hk : ((qOf 1).sub (r.max2 (g.max2 b))).lt (qOf 1)
  · rw [if_pos hk]
    rcases max2_cases r (g.max2 b) with hm | hm
    · left
      rw [hm]
      simp only [Q.div_toRat, Q.sub_toRat, qOf_toRat]
      rw [sub_self, zero_div]
    · rcases max2_cases g b with hm2 | hm2
      · right
        left
        rw [hm, hm2]
        simp only [Q.div_toRat, Q.sub_toRat, qOf_toRat]
        rw [sub_self, zero_div]
      · right
        right
        rw [hm, hm2]
        simp only [Q.div_toRat, Q.sub_toRat, qOf_toRat]
        rw [sub_self, zero_div]
  · rw [if_neg hk]
    left
    rw [qOf_toRat]
    norm_num

theorem transformCmykBack_component_zero (t : Q × Q × Q) :
    (transformCmykBack t).1.toRat = 0 ∨ (transformCmykBack t).2.1.toRat = 0 ∨
      (transformCmykBack t).2.2.1.toRat = 0 := by
  unfold transformCmykBack
  by_cases hz : t.1.qeq (qOf 0) ∧ t.2.1.qeq (qOf 0) ∧ t.2.2.qeq (qOf 0)
  · rw [if_pos hz]
    left
    rw [qOf_toRat]
    norm_num
  · rw [if_neg hz]
    exact rgbToCmyk_component_zero _ _ _

/-- C10: for every CMYK input, the CMYK tuple returned by `_transform_cmyk`
has at least one of its c, m, y components exactly zero: the special case
returns `(0,0,0,1)`, and otherwise `k' = 1 - max` makes the channel achieving
the maximum map to `(1 - channel - k')/(1 - k') = 0` (or the `k' ≥ 1` fallback
returns zero c, m, y). -/
theorem c10_cmyk_has_zero_component (bg : Bg) (c m y k : Q) :
    (transformCmyk bg c m y k).1.toRat = 0 ∨
      (transformCmyk bg c m y k).2.1.toRat = 0 ∨
      (transformCmyk bg c m y k).2.2.1.toRat = 0 :=
  transformCmykBack_component_zero _

/-!
## Claims about Colour Math: the HSV round trip

To reason about `_rgb_to_hsv` and `_hsv_to_rgb` we mirror them as functions
on `ℚ` and show `Q.toRat` commutes with them.
-/

/-- Python's float `%` on rationals. -/
def qmodR (x m : ℚ) : ℚ := x - m * (⌊x / m⌋ : ℚ)

/-- Mirror of `_hsv_to_rgb` on `ℚ` (same shape as `hsvToRgb`). -/
def hsvToRgbR (h s v : ℚ) : ℚ × ℚ × ℚ :=
  let H := h * 360
  let c := v * s
  let x := c * (1 - |qmodR (H / 60) 2 - 1|)
  let m := v - c
  let rgb :=
    if 0 ≤ H ∧ H < 60 then (c, x, 0)
    else if 60 ≤ H ∧ H < 120 then (x, c, 0)
    else if 120 ≤ H ∧ H < 180 then (0, c, x)
    else if 180 ≤ H ∧ H < 240 then (0, x, c)
    else if 240 ≤ H ∧ H < 300 then (x, 0, c)
    else (c, 0, x)
  (rgb.1 + m, rgb.2.1 + m, rgb.2.2 + m)

/-- Mirror of `_rgb_to_hsv` on `ℚ` (same shape as `rgbToHsv`). -/
def rgbToHsvR (r g b : ℚ) : ℚ × ℚ × ℚ :=
  let maxv := max r (max g b)
  let minv := min r (min g b)
  let diff := maxv - minv
  let h :=
    if diff = 0 then 0
    else if maxv = r then qmodR (60 * ((g - b) / diff) + 360) 360
    else if maxv = g then qmodR (60 * ((b - r) / diff) + 120) 360
    else qmodR (60 * ((r - g) / diff) + 240) 360
  let s := if maxv = 0 then 0 else diff / maxv
  (h / 360, s, maxv)

theorem hsvToRgb_toRat (h s v : Q) :
    ((hsvToRgb h s v).1.toRat, (hsvToRgb h s v).2.1.toRat, (hsvToRgb h s v).2.2.toRat)
      = hsvToRgbR h.toRat s.toRat v.toRat := by
  unfold hsvToRgb hsvToRgbR qmodR
  simp only []
  have e1 : ((qOf 0).le (h.mul (qOf 360)) ∧ (h.mul (qOf 360)).lt (qOf 60)) ↔
      (0 ≤ h.toRat * 360 ∧ h.toRat * 360 < 60) := by
    rw [Q.le_iff, Q.lt_iff, Q.mul_toRat, qOf_toRat, qOf_toRat, qOf_toRat]
    push_cast
    exact Iff.rfl
  have e2 : ((qOf 60).le (h.mul (qOf 360)) ∧ (h.mul (qOf 360)).lt (qOf 120)) ↔
      (60 ≤ h.toRat * 360 ∧ h.toRat * 360 < 120) := by
    rw [Q.le_iff, Q.lt_iff, Q.mul_toRat, qOf_toRat, qOf_toRat, qOf_toRat]
    push_cast
    exact Iff.rfl
  have e3 : ((qOf 120).le (h.mul (qOf 360)) ∧ (h.mul (qOf 360)).lt (qOf 180)) ↔
      (120 ≤ h.toRat * 360 ∧ h.toRat * 360 < 180) := by
    rw [Q.le_iff, Q.lt_iff, Q.mul_toRat, qOf_toRat, qOf_toRat, qOf_toRat]
    push_cast
    exact Iff.rfl
  have e4 : ((qOf 180).le (h.mul (qOf 360)) ∧ (h.mul (qOf 360)).lt (qOf 240)) ↔
      (180 ≤ h.toRat * 360 ∧ h.toRat * 360 < 240) := by
    rw [Q.le_iff, Q.lt_iff, Q.mul_toRat, qOf_toRat, qOf_toRat, qOf_toRat]
    push_cast
    exact Iff.rfl
  have e5 : ((qOf 240).le (h.mul (qOf 360)) ∧ (h.mul (qOf 360)).lt (qOf 300)) ↔
      (240 ≤ h.toRat * 360 ∧ h.toRat * 360 < 300) := by
    rw [Q.le_iff, Q.lt_iff, Q.mul_toRat, qOf_toRat, qOf_toRat, qOf_toRat]
    push_cast
    exact Iff.rfl
  have hx : ((((h.mul (qOf 360)).div (qOf 60)).qmod (qOf 2))).toRat
      = h.toRat * 360 / 60 - 2 * (⌊h.toRat * 360 / 60 / 2⌋ : ℚ) := by
    rw [Q.qmod_toRat, Q.div_toRat, Q.mul_toRat, qOf_toRat, qOf_toRat, qOf_toRat]
    push_cast
    ring_nf
  by_cases hc1 : 0 ≤ h.toRat * 360 ∧ h.toRat * 360 < 60
  · rw [if_pos (e1.mpr hc1), if_pos hc1]
    simp only [Prod.mk.injEq, Q.add_toRat, Q.mul_toRat, Q.sub_toRat, Q.qabs_toRat,
      qOf_toRat, hx]
    push_cast
    refine ⟨by ring, by ring, by ring⟩
  · rw [if_neg (fun hq => hc1 (e1.mp hq)), if_neg hc1]
    by_cases hc2 : 60 ≤ h.toRat * 360 ∧ h.toRat * 360 < 120
    · rw [if_pos (e2.mpr hc2), if_pos hc2]
      simp only [Prod.mk.injEq, Q.add_toRat, Q.mul_toRat, Q.sub_toRat, Q.qabs_toRat,
        qOf_toRat, hx]
      push_cast
      refine ⟨by ring, by ring, by ring⟩
    · rw [if_neg (fun hq => hc2 (e2.mp hq)), if_neg hc2]
      by_cases hc3 : 120 ≤ h.toRat * 360 ∧ h.toRat * 360 < 180
      · rw [if_pos (e3.mpr hc3), if_pos hc3]
        simp only [Prod.mk.injEq, Q.add_toRat, Q.mul_toRat, Q.sub_toRat, Q.qabs_toRat,
          qOf_toRat, hx]
        push_cast
        refine ⟨by ring, by ring, by ring⟩
      · rw [if_neg (fun hq => hc3 (e3.mp hq)), if_neg hc3]
        by_cases hc4 : 180 ≤ h.toRat * 360 ∧ h.toRat * 360 < 240
        · rw [if_pos (e4.mpr hc4), if_pos hc4]
          simp only [Prod.mk.injEq, Q.add_toRat, Q.mul_toRat, Q.sub_toRat, Q.qabs_toRat,
            qOf_toRat, hx]
          push_cast
          refine ⟨by ring, by ring, by ring⟩
        · rw [if_neg (fun hq => hc4 (e4.mp hq)), if_neg hc4]
          by_cases hc5 : 240 ≤ h.toRat * 360 ∧ h.toRat * 360 < 300
          · rw [if_pos (e5.mpr hc5), if_pos hc5]
            simp only [Prod.mk.injEq, Q.add_toRat, Q.mul_toRat, Q.sub_toRat, Q.qabs_toRat,
              qOf_toRat, hx]
            push_cast
            refine ⟨by ring, by ring, by ring⟩
          · rw [if_neg (fun hq => hc5 (e5.mp hq)), if_neg hc5]
            simp only [Prod.mk.injEq, Q.add_toRat, Q.mul_toRat, Q.sub_toRat, Q.qabs_toRat,
              qOf_toRat, hx]
            push_cast
            refine ⟨by ring, by ring, by ring⟩

theorem rgbToHsv_toRat (r g b : Q) :
    ((rgbToHsv r g b).1.toRat, (rgbToHsv r g b).2.1.toRat, (rgbToHsv r g b).2.2.toRat)
      = rgbToHsvR r.toRat g.toRat b.toRat := by
  unfold rgbToHsv rgbToHsvR qmodR
  simp only []
  have ed : ((r.max2 (g.max2 b)).sub (r.min2 (g.min2 b))).qeq (qOf 0) ↔
      (max r.toRat (max g.toRat b.toRat) - min r.toRat (min g.toRat b.toRat) = 0) := by
    rw [Q.qeq_iff, Q.sub_toRat, Q.max2_toRat, Q.max2_toRat, Q.min2_toRat, Q.min2_toRat,
      qOf_toRat]
    push_cast
    exact Iff.rfl
  have er : (r.max2 (g.max2 b)).qeq r ↔ max r.toRat (max g.toRat b.toRat) = r.toRat := by
    rw [Q.qeq_iff, Q.max2_toRat, Q.max2_toRat]
  have eg : (r.max2 (g.max2 b)).qeq g ↔ max r.toRat (max g.toRat b.toRat) = g.toRat := by
    rw [Q.qeq_iff, Q.max2_toRat, Q.max2_toRat]
  have e0 : (r.max2 (g.max2 b)).qeq (qOf 0) ↔ max r.toRat (max g.toRat b.toRat) = 0 := by
    rw [Q.qeq_iff, Q.max2_toRat, Q.max2_toRat, qOf_toRat]
    push_cast
    exact Iff.rfl
  have hs : (if (r.max2 (g.max2 b)).qeq (qOf 0) then qOf 0
      else ((r.max2 (g.max2 b)).sub (r.min2 (g.min2 b))).div (r.max2 (g.max2 b))).toRat
      = (if max r.toRat (max g.toRat b.toRat) = 0 then 0
      else (max r.toRat (max g.toRat b.toRat) - min r.toRat (min g.toRat b.toRat)) /
        max r.toRat (max g.toRat b.toRat)) := by
    by_cases h0 : max r.toRat (max g.toRat b.toRat) = 0
    · rw [if_pos (e0.mpr h0), if_pos h0, qOf_toRat]
      push_cast
      rfl
    · rw [if_neg (fun hq => h0 (e0.mp hq)), if_neg h0, Q.div_toRat, Q.sub_toRat,
        Q.max2_toRat, Q.max2_toRat, Q.min2_toRat, Q.min2_toRat]
  have hv : (r.max2 (g.max2 b)).toRat = max r.toRat (max g.toRat b.toRat) := by
    rw [Q.max2_toRat, Q.max2_toRat]
  by_cases hd : max r.toRat (max g.toRat b.toRat) - min r.toRat (min g.toRat b.toRat) = 0
  · rw [if_pos (ed.mpr hd), if_pos hd]
    simp only [Prod.mk.injEq, Q.div_toRat, qOf_toRat, hs, hv]
    push_cast
    first
      | trivial
      | (refine ⟨?_, ?_, ?_⟩ <;> first | rfl | ring_nf)
  · rw [if_neg (fun hq => hd (ed.mp hq)), if_neg hd]
    by_cases hr : max r.toRat (max g.toRat b.toRat) = r.toRat
    · rw [if_pos (er.mpr hr), if_pos hr]
      simp only [Prod.mk.injEq, Q.div_toRat, Q.qmod_toRat, Q.add_toRat, Q.mul_toRat,
        Q.sub_toRat, Q.max2_toRat, Q.max2_toRat, Q.min2_toRat, qOf_toRat, hs, hv]
      push_cast
      first
        | trivial
        | (refine ⟨?_, ?_, ?_⟩ <;> first | rfl | ring_nf)
    · rw [if_neg (fun hq => hr (er.mp hq)), if_neg hr]
      by_cases hg : max r.toRat (max g.toRat b.toRat) = g.toRat
      · rw [if_pos (eg.mpr hg), if_pos hg]
        simp only [Prod.mk.injEq, Q.div_toRat, Q.qmod_toRat, Q.add_toRat, Q.mul_toRat,
          Q.sub_toRat, Q.max2_toRat, Q.max2_toRat, Q.min2_toRat, qOf_toRat, hs, hv]
        push_cast
        first
          | trivial
          | (refine ⟨?_, ?_, ?_⟩ <;> first | rfl | ring_nf)
      · rw [if_neg (fun hq => hg (eg.mp hq)), if_neg hg]
        simp only [Prod.mk.injEq, Q.div_toRat, Q.qmod_toRat, Q.add_toRat, Q.mul_toRat,
          Q.sub_toRat, Q.max2_toRat, Q.max2_toRat, Q.min2_toRat, qOf_toRat, hs, hv]
        push_cast
        first
          | trivial
          | (refine ⟨?_, ?_, ?_⟩ <;> first | rfl | ring_nf)

theorem hsvToRgbR_sec0 (h s v : ℚ) (h0 : 0 ≤ h) (h1 : h < 1/6) :
    hsvToRgbR h s v = (v, v - v*s + 6*h*(v*s), v - v*s) := by
  unfold hsvToRgbR qmodR
  simp only []
  have hfl : ⌊h * 360 / 60 / 2⌋ = 0 := by
    rw [Int.floor_eq_iff]
    push_cast
    constructor <;> linarith
  rw [hfl, if_pos (⟨by linarith, by linarith⟩ : (0:ℚ) ≤ h * 360 ∧ h * 360 < 60)]
  rw [abs_of_nonpos (by push_cast; linarith)]
  simp only [Prod.mk.injEq]
  refine ⟨by push_cast; ring, by push_cast; ring, by push_cast; ring⟩

theorem hsvToRgbR_sec1 (h s v : ℚ) (h0 : 1/6 ≤ h) (h1 : h < 1/3) :
    hsvToRgbR h s v = (v - v*s + (2 - 6*h)*(v*s), v, v - v*s) := by
  unfold hsvToRgbR qmodR
  simp only []
  have hfl : ⌊h * 360 / 60 / 2⌋ = 0 := by
    rw [Int.floor_eq_iff]
    push_cast
    constructor <;> linarith
  rw [hfl, if_neg (by rintro ⟨ha, hb⟩; linarith),
    if_pos (⟨by linarith, by linarith⟩ : (60:ℚ) ≤ h * 360 ∧ h * 360 < 120)]
  rw [abs_of_nonneg (by push_cast; linarith)]
  simp only [Prod.mk.injEq]
  refine ⟨by push_cast; ring, by push_cast; ring, by push_cast; ring⟩

theorem hsvToRgbR_sec2 (h s v : ℚ) (h0 : 1/3 ≤ h) (h1 : h < 1/2) :
    hsvToRgbR h s v = (v - v*s, v, v - v*s + (6*h - 2)*(v*s)) := by
  unfold hsvToRgbR qmodR
  simp only []
  have hfl : ⌊h * 360 / 60 / 2⌋ = 1 := by
    rw [Int.floor_eq_iff]
    push_cast
    constructor <;> linarith
  rw [hfl, if_neg (by rintro ⟨ha, hb⟩; linarith), if_neg (by rintro ⟨ha, hb⟩; linarith),
    if_pos (⟨by linarith, by linarith⟩ : (120:ℚ) ≤ h * 360 ∧ h * 360 < 180)]
  rw [abs_of_nonpos (by push_cast; linarith)]
  simp only [Prod.mk.injEq]
  refine ⟨by push_cast; ring, by push_cast; ring, by push_cast; ring⟩

theorem hsvToRgbR_sec3 (h s v : ℚ) (h0 : 1/2 ≤ h) (h1 : h < 2/3) :
    hsvToRgbR h s v = (v - v*s, v - v*s + (4 - 6*h)*(v*s), v) := by
  unfold hsvToRgbR qmodR
  simp only []
  have hfl : ⌊h * 360 / 60 / 2⌋ = 1 := by
    rw [Int.floor_eq_iff]
    push_cast
    constructor <;> linarith
  rw [hfl, if_neg (by rintro ⟨ha, hb⟩; linarith), if_neg (by rintro ⟨ha, hb⟩; linarith),
    if_neg (by rintro ⟨ha, hb⟩; linarith),
    if_pos (⟨by linarith, by linarith⟩ : (180:ℚ) ≤ h * 360 ∧ h * 360 < 240)]
  rw [abs_of_nonneg (by push_cast; linarith)]
  simp only [Prod.mk.injEq]
  refine ⟨by push_cast; ring, by push_cast; ring, by push_cast; ring⟩

theorem hsvToRgbR_sec4 (h s v : ℚ) (h0 : 2/3 ≤ h) (h1 : h < 5/6) :
    hsvToRgbR h s v = (v - v*s + (6*h - 4)*(v*s), v - v*s, v) := by
  unfold hsvToRgbR qmodR
  simp only []
  have hfl : ⌊h * 360 / 60 / 2⌋ = 2 := by
    rw [Int.floor_eq_iff]
    push_cast
    constructor <;> linarith
  rw [hfl, if_neg (by rintro ⟨ha, hb⟩; linarith), if_neg (by rintro ⟨ha, hb⟩; linarith),
    if_neg (by rintro ⟨ha, hb⟩; linarith), if_neg (by rintro ⟨ha, hb⟩; linarith),
    if_pos (⟨by linarith, by linarith⟩ : (240:ℚ) ≤ h * 360 ∧ h * 360 < 300)]
  rw [abs_of_nonpos (by push_cast; linarith)]
  simp only [Prod.mk.injEq]
  refine ⟨by push_cast; ring, by push_cast; ring, by push_cast; ring⟩

theorem hsvToRgbR_sec5 (h s v : ℚ) (h0 : 5/6 ≤ h) (h1 : h < 1) :
    hsvToRgbR h s v = (v, v - v*s, v - v*s + (6 - 6*h)*(v*s)) := by
  unfold hsvToRgbR qmodR
  simp only []
  have hfl : ⌊h * 360 / 60 / 2⌋ = 2 := by
    rw [Int.floor_eq_iff]
    push_cast
    constructor <;> linarith
  rw [hfl, if_neg (by rintro ⟨ha, hb⟩; linarith), if_neg (by rintro ⟨ha, hb⟩; linarith),
    if_neg (by rintro ⟨ha, hb⟩; linarith), if_neg (by rintro ⟨ha, hb⟩; linarith),
    if_neg (by rintro ⟨ha, hb⟩; linarith)]
  rw [abs_of_nonneg (by push_cast; linarith)]
  simp only [Prod.mk.injEq]
  refine ⟨by push_cast; ring, by push_cast; ring, by push_cast; ring⟩

theorem roundR_sec0 (h s v : ℚ) (h0 : 0 ≤ h) (h1 : h < 1/6) (hs0 : 0 < s) (hs1 : s ≤ 1)
    (hv0 : 0 < v) (hv1 : v ≤ 1) :
    rgbToHsvR v (v - v*s + 6*h*(v*s)) (v - v*s) = (h, s, v) := by
  have hc : 0 < v * s := mul_pos hv0 hs0
  have hcne : v * s ≠ 0 := ne_of_gt hc
  have hvne : v ≠ 0 := ne_of_gt hv0
  have hbg : v - v*s ≤ v - v*s + 6*h*(v*s) := by nlinarith
  have hgv : v - v*s + 6*h*(v*s) ≤ v := by nlinarith
  have hbv : v - v*s ≤ v := by nlinarith
  unfold rgbToHsvR qmodR
  simp only []
  rw [max_eq_left hbg, max_eq_left hgv, min_eq_right hbg, min_eq_right hbv,
    show v - (v - v*s) = v*s from by ring, if_neg hcne, if_pos rfl,
    show 60 * ((v - v*s + 6*h*(v*s) - (v - v*s)) / (v*s)) + 360 = 360*h + 360 from by
      field_simp
      ring,
    show (360*h + 360 : ℚ)/360 = h + 1 from by ring, Int.floor_add_one,
    show ⌊h⌋ = 0 from by
      rw [Int.floor_eq_iff]
      push_cast
      constructor <;> linarith,
    if_neg hvne]
  simp only [Prod.mk.injEq]
  refine ⟨by push_cast; ring, ?_, by trivial⟩
  rw [mul_comm v s, mul_div_assoc, div_self hvne, mul_one]

theorem roundR_sec1 (h s v : ℚ) (h0 : 1/6 ≤ h) (h1 : h < 1/3) (hs0 : 0 < s) (hs1 : s ≤ 1)
    (hv0 : 0 < v) (hv1 : v ≤ 1) :
    rgbToHsvR (v - v*s + (2 - 6*h)*(v*s)) v (v - v*s) = (h, s, v) := by
  have hc : 0 < v * s := mul_pos hv0 hs0
  have hcne : v * s ≠ 0 := ne_of_gt hc
  have hvne : v ≠ 0 := ne_of_gt hv0
  have hbr : v - v*s ≤ v - v*s + (2 - 6*h)*(v*s) := by nlinarith
  have hrv : v - v*s + (2 - 6*h)*(v*s) ≤ v := by nlinarith
  have hbv : v - v*s ≤ v := by nlinarith
  unfold rgbToHsvR qmodR
  simp only []
  rw [max_eq_left hbv, max_eq_right hrv, min_eq_right hbv, min_eq_right hbr,
    show v - (v - v*s) = v*s from by ring, if_neg hcne]
  by_cases htie : h = 1/6
  · subst htie
    rw [if_pos (show v = v - v*s + (2 - 6*(1/6 : ℚ))*(v*s) from by ring),
      show 60 * ((v*s) / (v*s)) + 360 = 420 from by rw [div_self hcne]; norm_num,
      show (420 : ℚ)/360 = 7/6 from by norm_num,
      show ⌊(7/6 : ℚ)⌋ = 1 from by
        rw [Int.floor_eq_iff]
        push_cast
        constructor <;> linarith,
      if_neg hvne]
    simp only [Prod.mk.injEq]
    refine ⟨by push_cast; norm_num, ?_, by trivial⟩
    rw [mul_comm v s, mul_div_assoc, div_self hvne, mul_one]
  · have hgt : 1/6 < h := lt_of_le_of_ne h0 (Ne.symm htie)
    rw [if_neg (show ¬ (v = v - v*s + (2 - 6*h)*(v*s)) from by intro hx; nlinarith),
      if_pos rfl,
      show 60 * ((v - v*s - (v - v*s + (2 - 6*h)*(v*s))) / (v*s)) + 120 = 360*h from by
        field_simp
        ring,
      show (360*h : ℚ)/360 = h from by ring,
      show ⌊h⌋ = 0 from by
        rw [Int.floor_eq_iff]
        push_cast
        constructor <;> linarith,
      if_neg hvne]
    simp only [Prod.mk.injEq]
    refine ⟨by push_cast; ring, ?_, by trivial⟩
    rw [mul_comm v s, mul_div_assoc, div_self hvne, mul_one]

theorem roundR_sec2 (h s v : ℚ) (h0 : 1/3 ≤ h) (h1 : h < 1/2) (hs0 : 0 < s) (hs1 : s ≤ 1)
    (hv0 : 0 < v) (hv1 : v ≤ 1) :
    rgbToHsvR (v - v*s) v (v - v*s + (6*h - 2)*(v*s)) = (h, s, v) := by
  have hc : 0 < v * s := mul_pos hv0 hs0
  have hcne : v * s ≠ 0 := ne_of_gt hc
  have hvne : v ≠ 0 := ne_of_gt hv0
  have hbg : v - v*s ≤ v - v*s + (6*h - 2)*(v*s) := by nlinarith
  have hgv : v - v*s + (6*h - 2)*(v*s) ≤ v := by nlinarith
  have hbv : v - v*s ≤ v := by nlinarith
  unfold rgbToHsvR qmodR
  simp only []
  rw [max_eq_left hgv, max_eq_right hbv, min_eq_right hgv, min_eq_left hbg,
    show v - (v - v*s) = v*s from by ring, if_neg hcne,
    if_neg (show ¬ (v = v - v*s) from by intro hx; nlinarith), if_pos rfl,
    show 60 * ((v - v*s + (6*h - 2)*(v*s) - (v - v*s)) / (v*s)) + 120 = 360*h from by
      field_simp
      ring,
    show (360*h : ℚ)/360 = h from by ring,
    show ⌊h⌋ = 0 from by
      rw [Int.floor_eq_iff]
      push_cast
      constructor <;> linarith,
    if_neg hvne]
  simp only [Prod.mk.injEq]
  refine ⟨by push_cast; ring, ?_, by trivial⟩
  rw [mul_comm v s, mul_div_assoc, div_self hvne, mul_one]

theorem roundR_sec3 (h s v : ℚ) (h0 : 1/2 ≤ h) (h1 : h < 2/3) (hs0 : 0 < s) (hs1 : s ≤ 1)
    (hv0 : 0 < v) (hv1 : v ≤ 1) :
    rgbToHsvR (v - v*s) (v - v*s + (4 - 6*h)*(v*s)) v = (h, s, v) := by
  have hc : 0 < v * s := mul_pos hv0 hs0
  have hcne : v * s ≠ 0 := ne_of_gt hc
  have hvne : v ≠ 0 := ne_of_gt hv0
  have hbg : v - v*s ≤ v - v*s + (4 - 6*h)*(v*s) := by nlinarith
  have hgv : v - v*s + (4 - 6*h)*(v*s) ≤ v := by nlinarith
  have hbv : v - v*s ≤ v := by nlinarith
  unfold rgbToHsvR qmodR
  simp only []
  rw [max_eq_right hgv, max_eq_right hbv, min_eq_left hgv, min_eq_left hbg,
    show v - (v - v*s) = v*s from by ring, if_neg hcne,
    if_neg (show ¬ (v = v - v*s) from by intro hx; nlinarith)]
  by_cases htie : h = 1/2
  · subst htie
    rw [if_pos (show v = v - v*s + (4 - 6*(1/2 : ℚ))*(v*s) from by ring),
      show 60 * ((v*s) / (v*s)) + 120 = 180 from by
        rw [div_self hcne]
        norm_num,
      show (180 : ℚ)/360 = 1/2 from by norm_num,
      show ⌊(1/2 : ℚ)⌋ = 0 from by
        rw [Int.floor_eq_iff]
        push_cast
        constructor <;> linarith,
      if_neg hvne]
    simp only [Prod.mk.injEq]
    refine ⟨by push_cast; norm_num, ?_, by trivial⟩
    rw [mul_comm v s, mul_div_assoc, div_self hvne, mul_one]
  · have hgt : 1/2 < h := lt_of_le_of_ne h0 (Ne.symm htie)
    rw [if_neg (show ¬ (v = v - v*s + (4 - 6*h)*(v*s)) from by intro hx; nlinarith),
      show 60 * ((v - v*s - (v - v*s + (4 - 6*h)*(v*s))) / (v*s)) + 240 = 360*h from by
        field_simp
        ring,
      show (360*h : ℚ)/360 = h from by ring,
      show ⌊h⌋ = 0 from by
        rw [Int.floor_eq_iff]
        push_cast
        constructor <;> linarith,
      if_neg hvne]
    simp only [Prod.mk.injEq]
    refine ⟨by push_cast; ring, ?_, by trivial⟩
    rw [mul_comm v s, mul_div_assoc, div_self hvne, mul_one]

theorem roundR_sec4 (h s v : ℚ) (h0 : 2/3 ≤ h) (h1 : h < 5/6) (hs0 : 0 < s) (hs1 : s ≤ 1)
    (hv0 : 0 < v) (hv1 : v ≤ 1) :
    rgbToHsvR (v - v*s + (6*h - 4)*(v*s)) (v - v*s) v = (h, s, v) := by
  have hc : 0 < v * s := mul_pos hv0 hs0
  have hcne : v * s ≠ 0 := ne_of_gt hc
  have hvne : v ≠ 0 := ne_of_gt hv0
  have hbr : v - v*s ≤ v - v*s + (6*h - 4)*(v*s) := by nlinarith
  have hrv : v - v*s + (6*h - 4)*(v*s) ≤ v := by nlinarith
  have hbv : v - v*s ≤ v := by nlinarith
  unfold rgbToHsvR qmodR
  simp only []
  rw [max_eq_right hbv, max_eq_right hrv, min_eq_left hbv, min_eq_right hbr,
    show v - (v - v*s) = v*s from by ring, if_neg hcne,
    if_neg (show ¬ (v = v - v*s + (6*h - 4)*(v*s)) from by intro hx; nlinarith),
    if_neg (show ¬ (v = v - v*s) from by intro hx; nlinarith),
    show 60 * ((v - v*s + (6*h - 4)*(v*s) - (v - v*s)) / (v*s)) + 240 = 360*h from by
      field_simp
      ring,
    show (360*h : ℚ)/360 = h from by ring,
    show ⌊h⌋ = 0 from by
      rw [Int.floor_eq_iff]
      push_cast
      constructor <;> linarith,
    if_neg hvne]
  simp only [Prod.mk.injEq]
  refine ⟨by push_cast; ring, ?_, by trivial⟩
  rw [mul_comm v s, mul_div_assoc, div_self hvne, mul_one]

theorem roundR_sec5 (h s v : ℚ) (h0 : 5/6 ≤ h) (h1 : h < 1) (hs0 : 0 < s) (hs1 : s ≤ 1)
    (hv0 : 0 < v) (hv1 : v ≤ 1) :
    rgbToHsvR v (v - v*s) (v - v*s + (6 - 6*h)*(v*s)) = (h, s, v) := by
  have hc : 0 < v * s := mul_pos hv0 hs0
  have hcne : v * s ≠ 0 := ne_of_gt hc
  have hvne : v ≠ 0 := ne_of_gt hv0
  have hbb : v - v*s ≤ v - v*s + (6 - 6*h)*(v*s) := by nlinarith
  have hbv2 : v - v*s + (6 - 6*h)*(v*s) ≤ v := by nlinarith
  have hbv : v - v*s ≤ v := by nlinarith
  unfold rgbToHsvR qmodR
  simp only []
  rw [max_eq_right hbb, max_eq_left hbv2, min_eq_left hbb, min_eq_right hbv,
    show v - (v - v*s) = v*s from by ring, if_neg hcne, if_pos rfl,
    show 60 * ((v - v*s - (v - v*s + (6 - 6*h)*(v*s))) / (v*s)) + 360 = 360*h from by
      field_simp
      ring,
    show (360*h : ℚ)/360 = h from by ring,
    show ⌊h⌋ = 0 from by
      rw [Int.floor_eq_iff]
      push_cast
      constructor <;> linarith,
    if_neg hvne]
  simp only [Prod.mk.injEq]
  refine ⟨by push_cast; ring, ?_, by trivial⟩
  rw [mul_comm v s, mul_div_assoc, div_self hvne, mul_one]

/-- The exact round trip `rgbToHsvR ∘ hsvToRgbR = id` on `ℚ` for
`h ∈ [0,1)`, `s ∈ (0,1]`, `v ∈ (0,1]`. -/
theorem roundR (h s v : ℚ) (hh0 : 0 ≤ h) (hh1 : h < 1) (hs0 : 0 < s) (hs1 : s ≤ 1)
    (hv0 : 0 < v) (hv1 : v ≤ 1) :
    rgbToHsvR (hsvToRgbR h s v).1 (hsvToRgbR h s v).2.1 (hsvToRgbR h s v).2.2
      = (h, s, v) := by
  by_cases h1 : h < 1/6
  · rw [hsvToRgbR_sec0 h s v hh0 h1]
    exact roundR_sec0 h s v hh0 h1 hs0 hs1 hv0 hv1
  · by_cases h2 : h < 1/3
    · rw [hsvToRgbR_sec1 h s v (by linarith) h2]
      exact roundR_sec1 h s v (by linarith) h2 hs0 hs1 hv0 hv1
    · by_cases h3 : h < 1/2
      · rw [hsvToRgbR_sec2 h s v (by linarith) h3]
        exact roundR_sec2 h s v (by linarith) h3 hs0 hs1 hv0 hv1
      · by_cases h4 : h < 2/3
        · rw [hsvToRgbR_sec3 h s v (by linarith) h4]
          exact roundR_sec3 h s v (by linarith) h4 hs0 hs1 hv0 hv1
        · by_cases h5 : h < 5/6
          · rw [hsvToRgbR_sec4 h s v (by linarith) h5]
            exact roundR_sec4 h s v (by linarith) h5 hs0 hs1 hv0 hv1
          · rw [hsvToRgbR_sec5 h s v (by linarith) hh1]
            exact roundR_sec5 h s v (by linarith) hh1 hs0 hs1 hv0 hv1

/-- With zero saturation, `_hsv_to_rgb` yields an achromatic triple. -/
theorem hsvToRgbR_szero (h v : ℚ) : hsvToRgbR h 0 v = (v, v, v) := by
  unfold hsvToRgbR qmodR
  simp only []
  split_ifs <;> simp only [Prod.mk.injEq] <;> refine ⟨by ring, by ring, by ring⟩

/-- Evaluating `_rgb_to_hsv` on an achromatic triple: hue 0, saturation 0,
value `v`. -/
theorem rgbToHsvR_diag (v : ℚ) : rgbToHsvR v v v = (0, 0, v) := by
  unfold rgbToHsvR qmodR
  simp only [max_self, min_self, sub_self, eq_self_iff_true, if_true]
  by_cases hv : v = 0
  · rw [if_pos hv]
    norm_num [Prod.mk.injEq]
  · rw [if_neg hv]
    norm_num [Prod.mk.injEq, zero_div]

/-- The HSV round trip of the source: `_rgb_to_hsv` applied to
`_hsv_to_rgb(h, s, v)`. -/
def hsvRound (h s v : Q) : Q × Q × Q :=
  rgbToHsv (hsvToRgb h s v).1 (hsvToRgb h s v).2.1 (hsvToRgb h s v).2.2

/-- C8, counterexample: at `h = 1/2, s = 1, v = 0` (a legal input for the
claim, which only excludes `s = 0`) the round trip loses the saturation:
`_hsv_to_rgb` yields `(0,0,0)` and `_rgb_to_hsv` returns `s = 0`, which is
off from `s = 1` by `1`, far beyond `1e-6`. -/
theorem c8_cex_v_zero_loses_saturation :
    ¬ (|(hsvRound (qd 1 2) (qOf 1) (qOf 0)).2.1.toRat - (qOf 1).toRat| ≤ 1/1000000) := by
  have h0 : (hsvRound (qd 1 2) (qOf 1) (qOf 0)).2.1.qeq (qOf 0) := by decide
  have h1 := (Q.qeq_iff _ _).mp h0
  rw [h1, qOf_toRat, qOf_toRat]
  push_cast
  norm_num

/-- C8, amended: for all `h ∈ [0,1)` and `s, v ∈ [0,1]` with `s ≠ 0` and
additionally `v ≠ 0`, converting HSV to RGB and back returns `(h, s, v)`
within `1e-6` in each component (in fact exactly); when `s = 0`, the `s` and
`v` components still round-trip within `1e-6`. -/
theorem c8_amended_hsv_roundtrip :
    (∀ h s v : Q, 0 ≤ h.toRat → h.toRat < 1 → 0 < s.toRat → s.toRat ≤ 1 →
      0 < v.toRat → v.toRat ≤ 1 →
      |(hsvRound h s v).1.toRat - h.toRat| ≤ 1/1000000 ∧
      |(hsvRound h s v).2.1.toRat - s.toRat| ≤ 1/1000000 ∧
      |(hsvRound h s v).2.2.toRat - v.toRat| ≤ 1/1000000) ∧
    (∀ h v : Q, 0 ≤ v.toRat → v.toRat ≤ 1 →
      |(hsvRound h (qOf 0) v).2.1.toRat - 0| ≤ 1/1000000 ∧
      |(hsvRound h (qOf 0) v).2.2.toRat - v.toRat| ≤ 1/1000000) := by
  constructor
  · intro h s v hh0 hh1 hs0 hs1 hv0 hv1
    have e := hsvToRgb_toRat h s v
    have e1 : (hsvToRgb h s v).1.toRat = (hsvToRgbR h.toRat s.toRat v.toRat).1 :=
      congrArg Prod.fst e
    have e2 : (hsvToRgb h s v).2.1.toRat = (hsvToRgbR h.toRat s.toRat v.toRat).2.1 :=
      congrArg (fun t => t.2.1) e
    have e3 : (hsvToRgb h s v).2.2.toRat = (hsvToRgbR h.toRat s.toRat v.toRat).2.2 :=
      congrArg (fun t => t.2.2) e
    have f := rgbToHsv_toRat (hsvToRgb h s v).1 (hsvToRgb h s v).2.1 (hsvToRgb h s v).2.2
    rw [e1, e2, e3, roundR h.toRat s.toRat v.toRat hh0 hh1 hs0 hs1 hv0 hv1] at f
    have f1 : (hsvRound h s v).1.toRat = h.toRat := congrArg Prod.fst f
    have f2 : (hsvRound h s v).2.1.toRat = s.toRat := congrArg (fun t => t.2.1) f
    have f3 : (hsvRound h s v).2.2.toRat = v.toRat := congrArg (fun t => t.2.2) f
    rw [f1, f2, f3, sub_self, sub_self, sub_self, abs_zero]
    norm_num
  · intro h v hv0 hv1
    have e := hsvToRgb_toRat h (qOf 0) v
    rw [qOf_toRat] at e
    have hz : ((0 : Int) : ℚ) = 0 := by norm_num
    rw [hz, hsvToRgbR_szero h.toRat v.toRat] at e
    have e1 : (hsvToRgb h (qOf 0) v).1.toRat = v.toRat := congrArg Prod.fst e
    have e2 : (hsvToRgb h (qOf 0) v).2.1.toRat = v.toRat := congrArg (fun t => t.2.1) e
    have e3 : (hsvToRgb h (qOf 0) v).2.2.toRat = v.toRat := congrArg (fun t => t.2.2) e
    have f := rgbToHsv_toRat (hsvToRgb h (qOf 0) v).1 (hsvToRgb h (qOf 0) v).2.1
      (hsvToRgb h (qOf 0) v).2.2
    rw [e1, e2, e3, rgbToHsvR_diag v.toRat] at f
    have f2 : (hsvRound h (qOf 0) v).2.1.toRat = 0 := congrArg (fun t => t.2.1) f
    have f3 : (hsvRound h (qOf 0) v).2.2.toRat = v.toRat := congrArg (fun t => t.2.2) f
    rw [f2, f3, sub_self, sub_self, abs_zero]
    norm_num

/-- Witness for C8 at the concrete input `(h, s, v) = (0, 1, 1)`. -/
theorem c8_amended_hsv_roundtrip_witness :
    |(hsvRound (qOf 0) (qOf 1) (qOf 1)).1.toRat - (qOf 0).toRat| ≤ 1/1000000 ∧
    |(hsvRound (qOf 0) (qOf 1) (qOf 1)).2.1.toRat - (qOf 1).toRat| ≤ 1/1000000 ∧
    |(hsvRound (qOf 0) (qOf 1) (qOf 1)).2.2.toRat - (qOf 1).toRat| ≤ 1/1000000 :=
  c8_amended_hsv_roundtrip.1 (qOf 0) (qOf 1) (qOf 1)
    (by rw [qOf_toRat]; norm_num) (by rw [qOf_toRat]; norm_num)
    (by rw [qOf_toRat]; norm_num) (by rw [qOf_toRat]; norm_num)
    (by rw [qOf_toRat]; norm_num) (by rw [qOf_toRat]; norm_num)

/-!
## Claims about Colour Math: the CMYK round trip
-/

/-- The round trip described by the claim: `cmykToRgb` then `rgbToCmyk`. -/
def cmykRound (c m y k : Q) : Q × Q × Q × Q :=
  rgbToCmyk (cmykToRgb c m y k).1 (cmykToRgb c m y k).2.1 (cmykToRgb c m y k).2.2

/-- C4, counterexample: the round trip is not the identity on all CMYK tuples
with `k < 1`: `(0.5, 0.5, 0.5, 0)` (all channels in `[0,1]`, `k = 0 < 1`)
comes back as `(0, 0, 0, 0.5)`, so the c channel is off by `0.5`, far beyond
`1e-6`. -/
theorem c4_cex_roundtrip_not_identity :
    ¬ (|(cmykRound (qd 1 2) (qd 1 2) (qd 1 2) (qOf 0)).1.toRat - (qd 1 2).toRat|
        ≤ 1/1000000) := by
  intro hcon
  have h0 : (cmykRound (qd 1 2) (qd 1 2) (qd 1 2) (qOf 0)).1.qeq (qOf 0) := by decide
  have h1 := (Q.qeq_iff _ _).mp h0
  rw [h1, qOf_toRat, qd_toRat, abs_le] at hcon
  obtain ⟨ha, _⟩ := hcon
  push_cast at ha
  norm_num at ha

/-- C4, amended: for every CMYK tuple with all channels in `[0,1]`, `k < 1`
and additionally `min(c,m,y) = 0` (the normal form the inverse produces), the
round trip returns the original tuple within `1e-6` in each channel (in fact
exactly); and `(0,0,0,1)` round-trips exactly. -/
theorem c4_amended_cmyk_roundtrip :
    (∀ c m y k : Q, 0 ≤ c.toRat → c.toRat ≤ 1 → 0 ≤ m.toRat → m.toRat ≤ 1 →
      0 ≤ y.toRat → y.toRat ≤ 1 → 0 ≤ k.toRat → k.toRat < 1 →
      min c.toRat (min m.toRat y.toRat) = 0 →
      |(cmykRound c m y k).1.toRat - c.toRat| ≤ 1/1000000 ∧
      |(cmykRound c m y k).2.1.toRat - m.toRat| ≤ 1/1000000 ∧
      |(cmykRound c m y k).2.2.1.toRat - y.toRat| ≤ 1/1000000 ∧
      |(cmykRound c m y k).2.2.2.toRat - k.toRat| ≤ 1/1000000) ∧
    ((cmykRound (qOf 0) (qOf 0) (qOf 0) (qOf 1)).1.qeq (qOf 0) ∧
      (cmykRound (qOf 0) (qOf 0) (qOf 0) (qOf 1)).2.1.qeq (qOf 0) ∧
      (cmykRound (qOf 0) (qOf 0) (qOf 0) (qOf 1)).2.2.1.qeq (qOf 0) ∧
      (cmykRound (qOf 0) (qOf 0) (qOf 0) (qOf 1)).2.2.2.qeq (qOf 1)) := by
  constructor
  · intro c m y k hc0 hc1 hm0 hm1 hy0 hy1 hk0 hk1 hmin
    have hKne : (1 : ℚ) - k.toRat ≠ 0 := by intro hx; linarith
    have er : (cmykToRgb c m y k).1.toRat = (1 - c.toRat) * (1 - k.toRat) := by
      unfold cmykToRgb
      simp only [Q.mul_toRat, Q.sub_toRat, qOf_toRat]
      push_cast
      ring
    have eg : (cmykToRgb c m y k).2.1.toRat = (1 - m.toRat) * (1 - k.toRat) := by
      unfold cmykToRgb
      simp only [Q.mul_toRat, Q.sub_toRat, qOf_toRat]
      push_cast
      ring
    have eb : (cmykToRgb c m y k).2.2.toRat = (1 - y.toRat) * (1 - k.toRat) := by
      unfold cmykToRgb
      simp only [Q.mul_toRat, Q.sub_toRat, qOf_toRat]
      push_cast
      ring
    have hone : c.toRat = 0 ∨ m.toRat = 0 ∨ y.toRat = 0 := by
      rcases min_eq_iff.mp hmin with ⟨h, _⟩ | ⟨h2, _⟩
      · exact Or.inl h
      · rcases min_eq_iff.mp h2 with ⟨h, _⟩ | ⟨h, _⟩
        · exact Or.inr (Or.inl h)
        · exact Or.inr (Or.inr h)
    have hmaxQ : ((cmykToRgb c m y k).1.max2
        ((cmykToRgb c m y k).2.1.max2 (cmykToRgb c m y k).2.2)).toRat
        = 1 - k.toRat := by
      rw [Q.max2_toRat, Q.max2_toRat, er, eg, eb]
      have hR : (1 - c.toRat)*(1 - k.toRat) ≤ 1 - k.toRat := by nlinarith
      have hG : (1 - m.toRat)*(1 - k.toRat) ≤ 1 - k.toRat := by nlinarith
      have hB : (1 - y.toRat)*(1 - k.toRat) ≤ 1 - k.toRat := by nlinarith
      refine le_antisymm (max_le hR (max_le hG hB)) ?_
      rcases hone with h | h | h
      · calc 1 - k.toRat = (1 - c.toRat)*(1 - k.toRat) := by rw [h]; ring
          _ ≤ max ((1 - c.toRat)*(1 - k.toRat))
              (max ((1 - m.toRat)*(1 - k.toRat)) ((1 - y.toRat)*(1 - k.toRat))) :=
            le_max_left _ _
      · calc 1 - k.toRat = (1 - m.toRat)*(1 - k.toRat) := by rw [h]; ring
          _ ≤ max ((1 - m.toRat)*(1 - k.toRat)) ((1 - y.toRat)*(1 - k.toRat)) :=
            le_max_left _ _
          _ ≤ max ((1 - c.toRat)*(1 - k.toRat))
              (max ((1 - m.toRat)*(1 - k.toRat)) ((1 - y.toRat)*(1 - k.toRat))) :=
            le_max_right _ _
      · calc 1 - k.toRat = (1 - y.toRat)*(1 - k.toRat) := by rw [h]; ring
          _ ≤ max ((1 - m.toRat)*(1 - k.toRat)) ((1 - y.toRat)*(1 - k.toRat)) :=
            le_max_right _ _
          _ ≤ max ((1 - c.toRat)*(1 - k.toRat))
              (max ((1 - m.toRat)*(1 - k.toRat)) ((1 - y.toRat)*(1 - k.toRat))) :=
            le_max_right _ _
    have hcond : ((qOf 1).sub ((cmykToRgb c m y k).1.max2
        ((cmykToRgb c m y k).2.1.max2 (cmykToRgb c m y k).2.2))).lt (qOf 1) := by
      rw [Q.lt_iff, Q.sub_toRat, qOf_toRat, hmaxQ]
      push_cast
      linarith
    have hcomp1 : (cmykRound c m y k).1.toRat = c.toRat := by
      unfold cmykRound rgbToCmyk
      simp only []
      rw [if_pos hcond]
      simp only [Q.div_toRat, Q.sub_toRat, qOf_toRat]
      rw [hmaxQ, er]
      push_cast
      field_simp
      ring
    have hcomp2 : (cmykRound c m y k).2.1.toRat = m.toRat := by
      unfold cmykRound rgbToCmyk
      simp only []
      rw [if_pos hcond]
      simp only [Q.div_toRat, Q.sub_toRat, qOf_toRat]
      rw [hmaxQ, eg]
      push_cast
      field_simp
      ring
    have hcomp3 : (cmykRound c m y k).2.2.1.toRat = y.toRat := by
      unfold cmykRound rgbToCmyk
      simp only []
      rw [if_pos hcond]
      simp only [Q.div_toRat, Q.sub_toRat, qOf_toRat]
      rw [hmaxQ, eb]
      push_cast
      field_simp
      ring
    have hcomp4 : (cmykRound c m y k).2.2.2.toRat = k.toRat := by
      unfold cmykRound rgbToCmyk
      simp only []
      rw [if_pos hcond]
      simp only [Q.sub_toRat, qOf_toRat]
      rw [hmaxQ]
      push_cast
      ring
    rw [hcomp1, hcomp2, hcomp3, hcomp4, sub_self, sub_self, sub_self, sub_self,
      abs_zero]
    norm_num
  · exact ⟨by decide, by decide, by decide, by decide⟩

/-- Witness for C4 at the concrete input `(0, 0, 0, 0)`. -/
theorem c4_amended_cmyk_roundtrip_witness :
    |(cmykRound (qOf 0) (qOf 0) (qOf 0) (qOf 0)).1.toRat - (qOf 0).toRat| ≤ 1/1000000 ∧
    |(cmykRound (qOf 0) (qOf 0) (qOf 0) (qOf 0)).2.1.toRat - (qOf 0).toRat| ≤ 1/1000000 ∧
    |(cmykRound (qOf 0) (qOf 0) (qOf 0) (qOf 0)).2.2.1.toRat - (qOf 0).toRat| ≤ 1/1000000 ∧
    |(cmykRound (qOf 0) (qOf 0) (qOf 0) (qOf 0)).2.2.2.toRat - (qOf 0).toRat| ≤ 1/1000000 :=
  c4_amended_cmyk_roundtrip.1 (qOf 0) (qOf 0) (qOf 0) (qOf 0)
    (by rw [qOf_toRat]; norm_num) (by rw [qOf_toRat]; norm_num)
    (by rw [qOf_toRat]; norm_num) (by rw [qOf_toRat]; norm_num)
    (by rw [qOf_toRat]; norm_num) (by rw [qOf_toRat]; norm_num)
    (by rw [qOf_toRat]; norm_num) (by rw [qOf_toRat]; norm_num)
    (by simp [qOf_toRat])

end PdfDark
